import Mathlib

/-!
Verification of the Relay query-subtraction engine (subtractRelayQuery.js)
and the pending-query tracker (RelayPendingQueryTracker).

The query tree model follows the data model of the specification: a tree of
Root, Fragment and Field nodes, where a Field carries a schema name, an
application name (alias), argument calls, and the flags isRequisite,
isRefQueryDependency, canHaveSubselections and isConnection.
-/

set_option maxHeartbeats 1600000

namespace Relay

/-- An argument value; deep value equality is structural equality. -/
inductive CallValue where
  | vInt (n : Int)
  | vStr (s : String)
  | vBool (b : Bool)
  | vNull
  deriving DecidableEq, Repr

/-- A named argument of a field or root, as returned by getCallsWithValues. -/
structure Call where
  name : String
  value : CallValue
  deriving DecidableEq, Repr

/-- The metadata of a Field node. -/
structure FieldData where
  schemaName : String
  applicationName : String
  calls : List Call
  isRequisite : Bool
  isRefQueryDependency : Bool
  canHaveSubselections : Bool
  isConnection : Bool
  deriving DecidableEq, Repr

/-- A query tree node: Root, Fragment, or Field. -/
inductive QNode where
  | root (fieldName : String) (identifyingArg : Option Call) (children : List QNode)
  | frag (children : List QNode)
  | fld (d : FieldData) (children : List QNode)
  deriving Repr

namespace QNode

/-- The ordered children of a node. -/
def children : QNode → List QNode
  | .root _ _ cs => cs
  | .frag cs => cs
  | .fld _ cs => cs

/-- Replace the children, keeping all other data. -/
def withChildren : QNode → List QNode → QNode
  | .root fn ia _, cs => .root fn ia cs
  | .frag _, cs => .frag cs
  | .fld d _, cs => .fld d cs

/-- Whether the node is a Root. -/
def isRoot : QNode → Bool
  | .root _ _ _ => true
  | _ => false

/-- Whether the node is a Field. -/
def isField : QNode → Bool
  | .fld _ _ => true
  | _ => false

/-- The root field name (getFieldName); only meaningful on roots and fields. -/
def getFieldName : QNode → String
  | .root fn _ _ => fn
  | .fld d _ => d.schemaName
  | .frag _ => ""

/-- The identifying argument of a root (getIdentifyingArg). -/
def getIdentifyingArg : QNode → Option Call
  | .root _ ia _ => ia
  | _ => none

/-- isRequisite of a Field node; false on other nodes. -/
def fieldIsRequisite : QNode → Bool
  | .fld d _ => d.isRequisite
  | _ => false

end QNode

mutual
/-- Structural size of a node, used as a fuel bound for the subtraction walk. -/
def qsize : QNode → Nat
  | .root _ _ cs => 1 + qsizeList cs
  | .frag cs => 1 + qsizeList cs
  | .fld _ cs => 1 + qsizeList cs
def qsizeList : List QNode → Nat
  | [] => 0
  | c :: cs => qsize c + qsizeList cs
end

mutual
/-- Boolean structural equality on query nodes. -/
def qbeq : QNode → QNode → Bool
  | .root fn ia cs, .root fn2 ia2 cs2 => fn = fn2 && ia = ia2 && qbeqList cs cs2
  | .frag cs, .frag cs2 => qbeqList cs cs2
  | .fld d cs, .fld d2 cs2 => d = d2 && qbeqList cs cs2
  | _, _ => false
def qbeqList : List QNode → List QNode → Bool
  | [], [] => true
  | c :: cs, c2 :: cs2 => qbeq c c2 && qbeqList cs cs2
  | _, _ => false
end

mutual
theorem qbeq_refl : ∀ a : QNode, qbeq a a = true
  | .root fn ia cs => by simp [qbeq, qbeqList_refl cs]
  | .frag cs => by simp [qbeq, qbeqList_refl cs]
  | .fld d cs => by simp [qbeq, qbeqList_refl cs]
theorem qbeqList_refl : ∀ cs : List QNode, qbeqList cs cs = true
  | [] => by simp [qbeqList]
  | c :: cs => by simp [qbeqList, qbeq_refl c, qbeqList_refl cs]
end

mutual
theorem qbeq_sound : ∀ a b : QNode, qbeq a b = true → a = b
  | .root fn ia cs, .root fn2 ia2 cs2 => by
      simp only [qbeq, Bool.and_eq_true, decide_eq_true_eq]
      intro h
      obtain ⟨⟨h1, h2⟩, h3⟩ := h
      simp [h1, h2, qbeqList_sound cs cs2 h3]
  | .root _ _ _, .frag _ => by simp [qbeq]
  | .root _ _ _, .fld _ _ => by simp [qbeq]
  | .frag _, .root _ _ _ => by simp [qbeq]
  | .frag cs, .frag cs2 => by
      simp only [qbeq]
      intro h
      simp [qbeqList_sound cs cs2 h]
  | .frag _, .fld _ _ => by simp [qbeq]
  | .fld _ _, .root _ _ _ => by simp [qbeq]
  | .fld _ _, .frag _ => by simp [qbeq]
  | .fld d cs, .fld d2 cs2 => by
      simp only [qbeq, Bool.and_eq_true, decide_eq_true_eq]
      intro h
      obtain ⟨h1, h2⟩ := h
      simp [h1, qbeqList_sound cs cs2 h2]
theorem qbeqList_sound : ∀ as bs : List QNode, qbeqList as bs = true → as = bs
  | [], [] => by simp
  | [], _ :: _ => by simp [qbeqList]
  | _ :: _, [] => by simp [qbeqList]
  | c :: cs, c2 :: cs2 => by
      simp only [qbeqList, Bool.and_eq_true]
      intro h
      obtain ⟨h1, h2⟩ := h
      simp [qbeq_sound c c2 h1, qbeqList_sound cs cs2 h2]
end

theorem qbeq_iff_eq (a b : QNode) : qbeq a b = true ↔ a = b := by
  constructor
  · exact qbeq_sound a b
  · intro h
    subst h
    exact qbeq_refl a

instance : DecidableEq QNode := fun a b => decidable_of_iff _ (qbeq_iff_eq a b)

instance {ε α : Type} [DecidableEq ε] [DecidableEq α] : DecidableEq (Except ε α)
  | .error e, .error e2 => decidable_of_iff (e = e2) (by simp)
  | .error _, .ok _ => isFalse (by simp)
  | .ok _, .error _ => isFalse (by simp)
  | .ok a, .ok b => decidable_of_iff (a = b) (by simp)

/-- Parse a decimal integer from the front of a character list, as JS parseInt
does after sign handling: accumulate leading digits, fail without any digit. -/
def parseDigits : List Char → Nat → Bool → Option Nat
  | [], acc, seen => if seen then some acc else none
  | c :: rest, acc, seen =>
    if c.isDigit then parseDigits rest (acc * 10 + (c.toNat - 48)) true
    else if seen then some acc else none

/-- Models JS parseInt(s, 10): trim, optional sign, leading decimal digits;
none models NaN. -/
def parseIntStr (s : String) : Option Int :=
  match s.trim.data with
  | '-' :: rest => (parseDigits rest 0 false).map (fun n => -(n : Int))
  | '+' :: rest => (parseDigits rest 0 false).map (fun n => (n : Int))
  | cs => (parseDigits cs 0 false).map (fun n => (n : Int))

/-- Models JS parseInt of the string conversion of an argument value, as used
by canSubtractField on first and last arguments; none models NaN (for booleans
and null the stringified form has no leading digits). -/
def parseIntVal : CallValue → Option Int
  | .vInt n => some n
  | .vStr s => parseIntStr s
  | .vBool _ => none
  | .vNull => none

/-- The first or last pagination comparison of canSubtractField: both values
must parse as integers and the minuend count must be at most the subtrahend
count; any NaN comparison is false, exactly as in JS. -/
def pagArgLe (a b : CallValue) : Bool :=
  match parseIntVal a, parseIntVal b with
  | some x, some y => x ≤ y
  | _, _ => false

/-- Transcribes canSubtractField: same schema name, argument lists of equal
length compared positionally by name, with first and last compared by
parseInt inequality and every other argument by deep value equality. -/
def canSubtractField (minField subField : QNode) : Bool :=
  match minField, subField with
  | .fld md _, .fld sd _ =>
    if md.schemaName ≠ sd.schemaName then false
    else if md.calls.length ≠ sd.calls.length then false
    else (List.zip md.calls sd.calls).all fun p =>
      if p.1.name ≠ p.2.name then false
      else if p.1.name = "first" ∨ p.1.name = "last" then pagArgLe p.1.value p.2.value
      else p.1.value = p.2.value
  | _, _ => false

/-- Transcribes canSubtractRoot: same root field name and identifying argument
equal by deep value equality. -/
def canSubtractRoot (minNode subNode : QNode) : Bool :=
  minNode.getFieldName = subNode.getFieldName &&
    minNode.getIdentifyingArg = subNode.getIdentifyingArg

mutual
/-- Transcribes isEmptyField: a field without subselections is empty exactly
when it is requisite, not a ref-query dependency, and unaliased; any other
node is empty when all its children are. -/
def isEmptyField : QNode → Bool
  | .fld d cs =>
    if !d.canHaveSubselections then
      d.isRequisite && !d.isRefQueryDependency && d.applicationName = d.schemaName
    else isEmptyFieldList cs
  | .root _ _ cs => isEmptyFieldList cs
  | .frag cs => isEmptyFieldList cs
def isEmptyFieldList : List QNode → Bool
  | [] => true
  | c :: cs => isEmptyField c && isEmptyFieldList cs
end

mutual
/-- Modelled from the spec: RelayQuery.Node.getField is supplied by the
external query model, not by this repository. Per the spec, it finds the
matching field of a container (two nodes denote the same logical field when
schema names and argument values match), searching the ordered children and
descending into fragments, first match wins. -/
def getFieldIn : List QNode → String → List Call → Option QNode
  | [], _, _ => none
  | c :: cs, sn, calls =>
    match getFieldNode c sn calls with
    | some f => some f
    | none => getFieldIn cs sn calls
/-- How one child contributes to the search: a field child matches in place, a
fragment child is searched inside, any other child is skipped. -/
def getFieldNode : QNode → String → List Call → Option QNode
  | .fld d cs, sn, calls =>
    if d.schemaName = sn ∧ d.calls = calls then some (.fld d cs) else none
  | .frag cs2, sn, calls => getFieldIn cs2 sn calls
  | .root _ _ _, _, _ => none
end

/-- Modelled from the spec: container.getField(target) looks up the field of
the container matching the target field. -/
def getField (container target : QNode) : Option QNode :=
  match target with
  | .fld d _ => getFieldIn container.children d.schemaName d.calls
  | _ => none

/-- Transcribes getMatchingRangeFields: the subtrahend children that are
fields subtractable from the range node. -/
def getMatchingRangeFields (node sub : QNode) : List QNode :=
  sub.children.filter fun c => c.isField && canSubtractField node c

/-- Modelled from the spec: RelayQuery.Node.clone(children) is supplied by the
external query model. Per the spec a transform produces a new node or reuses
the original by reference: null children are dropped; an emptied node becomes
null; unchanged children return the original node; otherwise a new node with
the remaining children is produced. -/
def cloneNode (n : QNode) (mapped : List (Option QNode)) : Option QNode :=
  let next := mapped.filterMap id
  if next.isEmpty then none
  else if next = n.children then some n
  else some (n.withChildren next)

/-- The invariant message of visitRoot. -/
def rootInvariantMsg : String :=
  "subtractRelayQuery(): Cannot subtract a non-root node from a root."

/-- The invariant message of the top level of subtractRelayQuery. -/
def rootExpectedMsg : String :=
  "subtractRelayQuery(): Expected a subtracted query root."

/-- The outcome of one visit: an invariant failure, or the subtracted node
    (none when fully removed) together with the final isEmpty flag of the
    visit state (each visit receives a fresh state with isEmpty true). -/
abbrev VisitRes := Except String (Option QNode × Bool)

/-- Transcribes _subtractScalar: a covered non-requisite scalar is removed
with the state untouched; otherwise the node is kept and isEmpty is set to
isEmptyField of the node. -/
def subtractScalar (sub n : QNode) : Option QNode × Bool :=
  match getField sub n with
  | some _ =>
    if !n.fieldIsRequisite then (none, true)
    else (some n, isEmptyField n)
  | none => (some n, isEmptyField n)

/-- Transcribes the child mapping of _subtractChildren: visit each child with
a fresh state, collect the diffs in order, and conjoin the child isEmpty
flags. The visit function is passed in so the recursion is structural. -/
def mapChildren (visit : QNode → QNode → Option VisitRes) (sub : QNode) :
    List QNode → Option (Except String (List (Option QNode) × Bool))
  | [] => some (.ok ([], true))
  | c :: cs =>
    match visit sub c with
    | none => none
    | some (.error e) => some (.error e)
    | some (.ok (d, emp)) =>
      match mapChildren visit sub cs with
      | none => none
      | some (.error e) => some (.error e)
      | some (.ok (ds, emp2)) => some (.ok (d :: ds, emp && emp2))

/-- Transcribes _subtractChildren: clone the node with the visited children. -/
def subtractChildrenA (visit : QNode → QNode → Option VisitRes) (sub n : QNode) :
    Option VisitRes :=
  match mapChildren visit sub n.children with
  | none => none
  | some (.error e) => some (.error e)
  | some (.ok (mapped, emp)) => some (.ok (cloneNode n mapped, emp))

/-- Transcribes the loop of _subtractConnection: subtract the children against
each matching range in turn, keeping the isEmpty flag of the last executed
iteration, and stop as soon as the diff collapses to null. -/
def connLoop (visit : QNode → QNode → Option VisitRes) :
    List QNode → QNode → Option VisitRes
  | [], diff => some (.ok (some diff, true))
  | r :: rest, diff =>
    match subtractChildrenA visit r diff with
    | none => none
    | some (.error e) => some (.error e)
    | some (.ok (none, emp)) => some (.ok (none, emp))
    | some (.ok (some diff2, emp)) =>
      if rest.isEmpty then some (.ok (some diff2, emp))
      else connLoop visit rest diff2

/-- Transcribes _subtractConnection: with no matching range the node is kept
whole and isEmpty is set from isEmptyField; otherwise run the range loop. -/
def subtractConnectionA (visit : QNode → QNode → Option VisitRes) (sub n : QNode) :
    Option VisitRes :=
  let ranges := getMatchingRangeFields n sub
  if ranges.isEmpty then some (.ok (some n, isEmptyField n))
  else connLoop visit ranges n

/-- Transcribes _subtractField: with no matching subtrahend field the node is
kept whole; otherwise subtract the children against the matched field. -/
def subtractFieldA (visit : QNode → QNode → Option VisitRes) (sub n : QNode) :
    Option VisitRes :=
  match getField sub n with
  | none => some (.ok (some n, isEmptyField n))
  | some subField => subtractChildrenA visit subField n

/-- Transcribes the visitor dispatch of RelayQuerySubtractor with a fuel
argument that only decreases across nested visits (visitRoot, visitFragment,
visitField); none means the fuel ran out. -/
def visitF : Nat → QNode → QNode → Option VisitRes
  | 0, _, _ => none
  | f + 1, sub, n =>
    match n with
    | .root _ _ _ =>
      if !sub.isRoot then some (.error rootInvariantMsg)
      else if !canSubtractRoot n sub then some (.ok (some n, false))
      else subtractChildrenA (visitF f) sub n
    | .frag _ => subtractChildrenA (visitF f) sub n
    | .fld d _ =>
      let diffRes :=
        if !d.canHaveSubselections then some (.ok (subtractScalar sub n))
        else if d.isConnection then subtractConnectionA (visitF f) sub n
        else subtractFieldA (visitF f) sub n
      match diffRes with
      | none => none
      | some (.error e) => some (.error e)
      | some (.ok (diff, emp)) =>
        match diff with
        | some t =>
          if t.fieldIsRequisite || !emp then some (.ok (some t, emp))
          else some (.ok (none, emp))
        | none => some (.ok (none, emp))

/-- Fuel that suffices for the whole walk: the size sum strictly decreases
across nested visits. -/
def fuelBound (minuend subtrahend : QNode) : Nat := qsize minuend + qsize subtrahend

/-- The full visit of the minuend with a fresh state; the fuel branch is
unreachable (see visitF_total). -/
def subtractVisit (minuend subtrahend : QNode) : VisitRes :=
  match visitF (fuelBound minuend subtrahend) subtrahend minuend with
  | some r => r
  | none => .error "fuel exhausted"

/-- Transcribes subtractRelayQuery: run the visitor with a fresh state; when
the state reports non-empty content the diff must be a root and is returned,
otherwise the result is null. -/
def subtractRelayQuery (minuend subtrahend : QNode) : Except String (Option QNode) :=
  match subtractVisit minuend subtrahend with
  | .error e => .error e
  | .ok (diff, emp) =>
    if !emp then
      match diff with
      | some t => if t.isRoot then .ok (some t) else .error rootExpectedMsg
      | none => .error rootExpectedMsg
    else .ok none

/-! Shape embedding: the relation that captures a subtracted tree preserving
the shape and child ordering of the minuend (an order-preserving selection of
children, recursively). -/

/-- Order-preserving pointwise embedding of one child list into another. -/
inductive ListEmb (R : QNode → QNode → Prop) : List QNode → List QNode → Prop
  | nil : ListEmb R [] []
  | cons {a b : QNode} {l₁ l₂ : List QNode} :
      R a b → ListEmb R l₁ l₂ → ListEmb R (a :: l₁) (b :: l₂)
  | skip {l₁ l₂ : List QNode} (b : QNode) :
      ListEmb R l₁ l₂ → ListEmb R l₁ (b :: l₂)

/-- A tree embeds into another when the head data agrees and the children are
an order-preserving selection of the other children, recursively. -/
inductive Emb : QNode → QNode → Prop
  | root {fn : String} {ia : Option Call} {cs ds : List QNode} :
      ListEmb Emb cs ds → Emb (.root fn ia cs) (.root fn ia ds)
  | frag {cs ds : List QNode} :
      ListEmb Emb cs ds → Emb (.frag cs) (.frag ds)
  | fld {d : FieldData} {cs ds : List QNode} :
      ListEmb Emb cs ds → Emb (.fld d cs) (.fld d ds)

/-! Well-formedness predicates used by the claims about whole-tree behavior. -/

mutual
/-- No field in the tree carries the isRequisite flag. -/
def noRequisiteIn : QNode → Bool
  | .fld d cs => !d.isRequisite && noRequisiteInList cs
  | .root _ _ cs => noRequisiteInList cs
  | .frag cs => noRequisiteInList cs
def noRequisiteInList : List QNode → Bool
  | [] => true
  | c :: cs => noRequisiteIn c && noRequisiteInList cs
end

mutual
/-- The node is not a Root and contains none below it. -/
def noRootIn : QNode → Bool
  | .root _ _ _ => false
  | .frag cs => noRootInList cs
  | .fld _ cs => noRootInList cs
def noRootInList : List QNode → Bool
  | [] => true
  | c :: cs => noRootIn c && noRootInList cs
end

/-- No Root node strictly below this one. -/
def noRootBelow (n : QNode) : Bool := noRootInList n.children

mutual
/-- Self-containment of a child inside a subtrahend scope: a fragment defers
to its children under the same scope; a scalar field is found by lookup in the
scope; a plain field is found by lookup as exactly itself and its children are
self-contained in it; a connection is a direct child of the scope, is its own
unique matching range, subtracts from itself, and its children are
self-contained in it; a nested Root never qualifies. This is the
well-formedness under which a tree fully covers itself. -/
def okIn : QNode → QNode → Bool
  | scope, .frag cs => okInList scope cs
  | scope, .fld d cs =>
    if !d.canHaveSubselections then (getField scope (.fld d cs)).isSome
    else if d.isConnection then
      decide (getMatchingRangeFields (.fld d cs) scope = [.fld d cs]) &&
        okInList (.fld d cs) cs
    else
      decide (getField scope (.fld d cs) = some (.fld d cs)) && okInList (.fld d cs) cs
  | _, .root _ _ _ => false
def okInList : QNode → List QNode → Bool
  | _, [] => true
  | scope, c :: cs => okIn scope c && okInList scope cs
end

/-! The pending-query tracker (RelayPendingQueryTracker). The query model is
abstract here: the tracker consumes only the query id, root containment and
query subtraction from its collaborators. -/

/-- Fetch modes; the tracker only distinguishes PRELOAD from the rest. -/
inductive FetchMode where
  | preload
  | client
  | refetch
  deriving DecidableEq, Repr

/-- The operations the tracker consumes from the query model. -/
structure QueryOps (Q : Type) where
  getID : Q → String
  containsRoot : Q → Q → Bool
  subtractQ : Q → Q → Option Q

/-- The settlement state of the resolved deferred of a fetch node. -/
inductive DeferredState where
  | pend
  | resolvedD
  | rejectedD (e : String)
  deriving DecidableEq, Repr

/-- One PendingFetch node: its original query, force index, the registry map
object it writes to, its dependents, its pending dependency map, the two
resolution flags, its accumulated errors and its resolved deferred. -/
structure PendingFetchNode (Q : Type) where
  query : Q
  forceIndex : Option Int
  mapRef : Nat
  dependents : List Nat
  pendingDependencyMap : List (String × Nat)
  fetchedSubtractedQuery : Bool
  resolvedSubtractedQuery : Bool
  errors : List String
  deferred : DeferredState

/-- The tracker state: the heap of fetch nodes, the heap of registry map
objects (resetPending swaps in a fresh one while old nodes keep writing to
the one they captured), the current map, id counters, the network fetches
issued, and the payload applications handed to the store task queue. -/
structure TrackerState (Q : Type) where
  fetches : List (Nat × PendingFetchNode Q)
  maps : List (Nat × List (String × Nat × Q))
  curMap : Nat
  nextFetchID : Nat
  nextMapID : Nat
  issuedFetches : List Q
  applied : List (Q × String × Option Int)

/-- First-match association lookup. -/
def lookupA {κ α : Type} [DecidableEq κ] : List (κ × α) → κ → Option α
  | [], _ => none
  | (k, v) :: rest, key => if k = key then some v else lookupA rest key

/-- Update the first binding of a key in place. -/
def updateA {κ α : Type} [DecidableEq κ] : List (κ × α) → κ → (α → α) → List (κ × α)
  | [], _, _ => []
  | (k, v) :: rest, key, f =>
    if k = key then (k, f v) :: rest else (k, v) :: updateA rest key f

/-- JS object assignment: replace in place when the key exists, else append in
insertion order. -/
def insertA {κ α : Type} [DecidableEq κ] : List (κ × α) → κ → α → List (κ × α)
  | [], key, v => [(key, v)]
  | (k, w) :: rest, key, v =>
    if k = key then (k, v) :: rest else (k, w) :: insertA rest key v

/-- JS delete of an object key. -/
def eraseA {κ α : Type} [DecidableEq κ] (l : List (κ × α)) (key : κ) : List (κ × α) :=
  l.filter fun e => e.1 ≠ key

/-- The node-local mutations that touch the resolved deferred, plus the
dependent registration. -/
inductive FetchEvent where
  | ownResolved
  | errRecorded (e : String)
  | depResolved (qid : String)
  | depRejected (qid : String) (e : String)
  | dependentAdded (fid : Nat)

/-- Transcribes _isSettled: an error was recorded, or the own subtracted
query resolved and the pending dependency map is empty. -/
def isSettledN {Q : Type} (n : PendingFetchNode Q) : Bool :=
  !n.errors.isEmpty || (n.resolvedSubtractedQuery && n.pendingDependencyMap.isEmpty)

/-- Transcribes _updateResolvedDeferred: when settled and the deferred has not
fired yet, reject with the first recorded error when any is present, resolve
otherwise. -/
def updateResolvedDeferredN {Q : Type} (n : PendingFetchNode Q) : PendingFetchNode Q :=
  if isSettledN n ∧ n.deferred = .pend then
    match n.errors with
    | e :: _ => { n with deferred := .rejectedD e }
    | [] => { n with deferred := .resolvedD }
  else n

/-- The node-local part of the four mutators (_markSubtractedQueryAsResolved,
_markAsRejected, _markDependencyAsResolved, _markDependencyAsRejected), each
of which ends by updating the resolved deferred; plus _addDependent. -/
def applyEvent {Q : Type} (n : PendingFetchNode Q) : FetchEvent → PendingFetchNode Q
  | .ownResolved => updateResolvedDeferredN { n with resolvedSubtractedQuery := true }
  | .errRecorded e => updateResolvedDeferredN { n with errors := n.errors ++ [e] }
  | .depResolved qid =>
      updateResolvedDeferredN
        { n with pendingDependencyMap := n.pendingDependencyMap.filter fun p => p.1 ≠ qid }
  | .depRejected qid e =>
      updateResolvedDeferredN
        { n with
          pendingDependencyMap := n.pendingDependencyMap.filter fun p => p.1 ≠ qid,
          errors := n.errors ++ [e] }
  | .dependentAdded fid => { n with dependents := n.dependents ++ [fid] }

/-- Apply a node-local event inside the tracker state. -/
def applyEventAt {Q : Type} (st : TrackerState Q) (id : Nat) (ev : FetchEvent) :
    TrackerState Q :=
  { st with fetches := updateA st.fetches id fun n => applyEvent n ev }

/-- Delete a registry entry from the map object a node writes to. -/
def eraseMapEntry {Q : Type} (st : TrackerState Q) (mapRef : Nat) (key : String) :
    TrackerState Q :=
  { st with maps := updateA st.maps mapRef fun es => es.filter fun e => e.1 ≠ key }

/-- Transcribes _markSubtractedQueryAsResolved: remove the registry entry,
mark the own subtracted query resolved, update the deferred, then notify every
dependent that this dependency resolved. -/
def markSubtractedQueryAsResolvedT {Q : Type} (ops : QueryOps Q) (st : TrackerState Q)
    (id : Nat) : TrackerState Q :=
  match lookupA st.fetches id with
  | none => st
  | some n =>
    let qid := ops.getID n.query
    let st1 := eraseMapEntry st n.mapRef qid
    let st2 := applyEventAt st1 id .ownResolved
    n.dependents.foldl (fun acc d => applyEventAt acc d (.depResolved qid)) st2

/-- Transcribes _markAsRejected: remove the registry entry, record the error,
update the deferred, then notify every dependent that this dependency was
rejected. -/
def markAsRejectedT {Q : Type} (ops : QueryOps Q) (st : TrackerState Q) (id : Nat)
    (e : String) : TrackerState Q :=
  match lookupA st.fetches id with
  | none => st
  | some n =>
    let qid := ops.getID n.query
    let st1 := eraseMapEntry st n.mapRef qid
    let st2 := applyEventAt st1 id (.errRecorded e)
    n.dependents.foldl (fun acc d => applyEventAt acc d (.depRejected qid e)) st2

/-- Transcribes _handleSubtractedQuerySuccess: mark the subtracted query
fetched and hand the payload to the store-application collaborator through
the serialized task queue (completion of that task later triggers
markSubtractedQueryAsResolvedT or markAsRejectedT). -/
def handleSubtractedQuerySuccessT {Q : Type} (st : TrackerState Q) (id : Nat)
    (subtractedQuery : Q) (response : String) : TrackerState Q :=
  match lookupA st.fetches id with
  | none => st
  | some n =>
    { st with
      fetches := updateA st.fetches id fun m => { m with fetchedSubtractedQuery := true },
      applied := st.applied ++ [(subtractedQuery, response, n.forceIndex)] }

/-- Transcribes _subtractPending: walk the registry entries in order; stop as
soon as the remainder is gone; for an entry whose pending query contains the
remainder root, subtract it, and when something was actually removed record
the dependency edge and continue with the updated remainder. Returns the
remainder and the dependency fetch ids in walk order. -/
def subtractPendingLoop {Q : Type} [DecidableEq Q] (ops : QueryOps Q) :
    List (String × Nat × Q) → Option Q → Option Q × List Nat
  | [], q => (q, [])
  | e :: rest, q =>
    match q with
    | none => (none, [])
    | some query =>
      if ops.containsRoot e.2.2 query then
        let sq := ops.subtractQ query e.2.2
        if sq ≠ some query then
          let r := subtractPendingLoop ops rest sq
          (r.1, e.2.1 :: r.2)
        else subtractPendingLoop ops rest (some query)
      else subtractPendingLoop ops rest (some query)

/-- The parameters of RelayPendingQueryTracker.add. -/
structure AddParams (Q : Type) where
  fetchMode : FetchMode
  forceIndex : Option Int
  query : Q

/-- The registry entries of the current map object. -/
def currentEntries {Q : Type} (st : TrackerState Q) : List (String × Nat × Q) :=
  (lookupA st.maps st.curMap).getD []

/-- Transcribes the PendingFetch constructor reached from add: in PRELOAD
mode the query is kept whole and resolved externally; otherwise the pending
registry is subtracted from it and the remainder, if any, is fetched from the
network. A node with a remainder is registered under its query id; a node
without one is immediately marked resolved. Returns the new state and the new
fetch id. -/
def addFetch {Q : Type} [DecidableEq Q] (ops : QueryOps Q) (st : TrackerState Q)
    (params : AddParams Q) : TrackerState Q × Nat :=
  let queryID := ops.getID params.query
  let id := st.nextFetchID
  let sr : Option Q × List Nat :=
    if params.fetchMode = .preload then (some params.query, [])
    else subtractPendingLoop ops (currentEntries st) (some params.query)
  let subtracted := sr.1
  let depIDs := sr.2
  let depPairs := depIDs.map fun d =>
    ((match lookupA st.fetches d with
      | some dn => ops.getID dn.query
      | none => ""), d)
  let node : PendingFetchNode Q :=
    { query := params.query
      forceIndex := params.forceIndex
      mapRef := st.curMap
      dependents := []
      pendingDependencyMap := depPairs
      fetchedSubtractedQuery := subtracted.isNone
      resolvedSubtractedQuery := false
      errors := []
      deferred := .pend }
  let st1 := { st with fetches := st.fetches ++ [(id, node)], nextFetchID := id + 1 }
  let st2 := depIDs.foldl (fun acc d => applyEventAt acc d (.dependentAdded id)) st1
  let st3 :=
    match subtracted with
    | some sq =>
      if params.fetchMode = .preload then st2
      else { st2 with issuedFetches := st2.issuedFetches ++ [sq] }
    | none => st2
  match subtracted with
  | some sq =>
    ({ st3 with maps := updateA st3.maps st3.curMap fun es => insertA es queryID (id, sq) },
      id)
  | none => (markSubtractedQueryAsResolvedT ops st3 id, id)

/-- Transcribes hasPendingQueries: the current map object has entries. -/
def hasPendingQueries {Q : Type} (st : TrackerState Q) : Bool :=
  !(currentEntries st).isEmpty

/-- Transcribes resetPending: swap in a fresh empty registry map object; the
old map objects, the fetch nodes and every other part of the state are left
untouched. -/
def resetPending {Q : Type} (st : TrackerState Q) : TrackerState Q :=
  { st with
    curMap := st.nextMapID
    maps := (st.nextMapID, []) :: st.maps
    nextMapID := st.nextMapID + 1 }

/-- Node states reachable from a freshly constructed PendingFetch by the
mutators that touch it. -/
inductive ReachableNode {Q : Type} : PendingFetchNode Q → Prop
  | init (query : Q) (forceIndex : Option Int) (mapRef : Nat)
      (deps : List (String × Nat)) (fetched : Bool) :
      ReachableNode
        { query := query, forceIndex := forceIndex, mapRef := mapRef,
          dependents := [], pendingDependencyMap := deps,
          fetchedSubtractedQuery := fetched, resolvedSubtractedQuery := false,
          errors := [], deferred := .pend }
  | step {n : PendingFetchNode Q} (ev : FetchEvent) :
      ReachableNode n → ReachableNode (applyEvent n ev)

/-! Concrete trees and states used by the witnesses and counterexamples. -/

/-- A requisite scalar field whose application name (alias) differs from its
schema name. -/
def reqAliasedField : FieldData :=
  { schemaName := "id", applicationName := "id2", calls := [],
    isRequisite := true, isRefQueryDependency := false,
    canHaveSubselections := false, isConnection := false }

/-- A root whose only child is the aliased requisite scalar. -/
def aliasedRoot : QNode := .root "node" none [.fld reqAliasedField []]

/-- A plain scalar field with the given name. -/
def scalarF (s : String) : FieldData :=
  { schemaName := s, applicationName := s, calls := [],
    isRequisite := false, isRefQueryDependency := false,
    canHaveSubselections := false, isConnection := false }

/-- A plain composite field with the given name. -/
def plainF (s : String) : FieldData :=
  { schemaName := s, applicationName := s, calls := [],
    isRequisite := false, isRefQueryDependency := false,
    canHaveSubselections := true, isConnection := false }

/-- A connection field with the given name and arguments. -/
def connF (s : String) (calls : List Call) : FieldData :=
  { schemaName := s, applicationName := s, calls := calls,
    isRequisite := false, isRefQueryDependency := false,
    canHaveSubselections := true, isConnection := true }

/-- A friends range asking for the first n items, with one scalar child. -/
def friendsFirst (n : Int) : QNode :=
  .fld (connF "friends" [⟨"first", .vInt n⟩]) [.fld (scalarF "count") []]

/-- A root asking for the first 10 friends. -/
def viewerFirst10 : QNode := .root "viewer" none [friendsFirst 10]

/-- A root asking for the first 20 friends. -/
def viewerFirst20 : QNode := .root "viewer" none [friendsFirst 20]

/-- A range whose argument list has orderby before first. -/
def rangeOrderbyFirst : QNode :=
  .fld (connF "friends" [⟨"orderby", .vStr "top"⟩, ⟨"first", .vInt 10⟩]) []

/-- The same range with the two arguments in the opposite order. -/
def rangeFirstOrderby : QNode :=
  .fld (connF "friends" [⟨"first", .vInt 10⟩, ⟨"orderby", .vStr "top"⟩]) []

/-- A plain field named x with one scalar child of the given name. -/
def dupX (inner : String) : QNode := .fld (plainF "x") [.fld (scalarF inner) []]

/-- A root holding two sibling fields with the same schema name and arguments
but different children. -/
def dupRoot : QNode := .root "viewer" none [dupX "a", dupX "b"]

/-- A requisite-free well-formed query: a scalar, a plain composite, and a
range, each self-contained. -/
def selfRoot : QNode :=
  .root "user" (some ⟨"id", .vInt 4⟩)
    [.fld (scalarF "name") [],
      .fld (plainF "profile") [.fld (scalarF "bio") []],
      friendsFirst 3]

/-- Query operations over Nat queries for the tracker witnesses: the id is
the decimal representation, every query contains every other, and
subtraction removes everything when the pending query is at least as large. -/
def natOps : QueryOps Nat :=
  { getID := fun q => toString q
    containsRoot := fun _ _ => true
    subtractQ := fun q p => if q ≤ p then none else some (q - p) }

/-- A tracker state as freshly constructed: no fetches, one empty registry
map object. -/
def initialTracker (Q : Type) : TrackerState Q :=
  { fetches := [], maps := [(0, [])], curMap := 0, nextFetchID := 0,
    nextMapID := 1, issuedFetches := [], applied := [] }

/-- The fetch node constructed by addFetch on the non-preload path for a
given remainder. -/
def nodeOf {Q : Type} [DecidableEq Q] (ops : QueryOps Q) (st : TrackerState Q)
    (params : AddParams Q) (subtracted : Option Q) : PendingFetchNode Q :=
  { query := params.query, forceIndex := params.forceIndex, mapRef := st.curMap,
    dependents := [],
    pendingDependencyMap :=
      ((subtractPendingLoop ops (currentEntries st) (some params.query)).2).map fun d =>
        ((match lookupA st.fetches d with
          | some dn => ops.getID dn.query
          | none => ""), d),
    fetchedSubtractedQuery := subtracted.isNone,
    resolvedSubtractedQuery := false, errors := [], deferred := .pend }

/-- A freshly constructed fetch node over Nat queries. -/
def w3base : PendingFetchNode Nat :=
  { query := 0, forceIndex := none, mapRef := 0, dependents := [],
    pendingDependencyMap := [], fetchedSubtractedQuery := false,
    resolvedSubtractedQuery := false, errors := [], deferred := .pend }

/-! Size lemmas. -/

theorem qsize_pos (n : QNode) : 1 ≤ qsize n := by
  cases n <;> simp [qsize]

theorem qsizeList_le_of_mem {c : QNode} : ∀ {cs : List QNode}, c ∈ cs → qsize c ≤ qsizeList cs
  | [], h => by cases h
  | b :: bs, h => by
    rcases List.mem_cons.mp h with h1 | h2
    · subst h1
      simp [qsizeList]
    · have := qsizeList_le_of_mem h2
      simp [qsizeList]
      omega

theorem qsize_lt_of_mem_children {c n : QNode} (h : c ∈ n.children) : qsize c < qsize n := by
  have h1 := qsizeList_le_of_mem h
  cases n <;> simp [QNode.children] at h1 ⊢ <;> simp [qsize] <;> omega

mutual
theorem getFieldIn_qsize : ∀ (cs : List QNode) (sn : String) (calls : List Call) (f : QNode),
    getFieldIn cs sn calls = some f → qsize f ≤ qsizeList cs
  | [], _, _, _ => by simp [getFieldIn]
  | c :: cs, sn, calls, f => by
    simp only [getFieldIn]
    intro h
    rcases hn : getFieldNode c sn calls with _ | g
    · rw [hn] at h
      have := getFieldIn_qsize cs sn calls f h
      simp [qsizeList]
      omega
    · rw [hn] at h
      cases h
      have := getFieldNode_qsize c sn calls f hn
      simp [qsizeList]
      omega
theorem getFieldNode_qsize : ∀ (c : QNode) (sn : String) (calls : List Call) (f : QNode),
    getFieldNode c sn calls = some f → qsize f ≤ qsize c
  | .fld d cs, sn, calls, f => by
    simp only [getFieldNode]
    intro h
    split at h
    · cases h
      exact le_refl _
    · cases h
  | .frag cs2, sn, calls, f => by
    simp only [getFieldNode]
    intro h
    have := getFieldIn_qsize cs2 sn calls f h
    simp [qsize]
    omega
  | .root _ _ _, _, _, _ => by simp [getFieldNode]
end

theorem getField_qsize_lt {scope t f : QNode} (h : getField scope t = some f) :
    qsize f < qsize scope := by
  unfold getField at h
  split at h
  case _ d cs =>
    have h1 := getFieldIn_qsize _ _ _ _ h
    cases scope <;> simp [QNode.children] at h1 <;> simp [qsize] <;> omega
  all_goals cases h

/-! Basic evaluation lemmas for the visitor. -/

theorem fuelBound_succ (m s : QNode) : ∃ f, fuelBound m s = f + 1 := by
  have h1 := qsize_pos m
  have h2 := qsize_pos s
  exact ⟨fuelBound m s - 1, by unfold fuelBound; omega⟩

/-! Embedding lemmas. -/

theorem listEmb_refl {R : QNode → QNode → Prop} :
    ∀ {cs : List QNode}, (∀ c ∈ cs, R c c) → ListEmb R cs cs
  | [], _ => .nil
  | c :: cs, h =>
    .cons (h c (by simp)) (listEmb_refl fun b hb => h b (by simp [hb]))

theorem emb_refl : ∀ n : QNode, Emb n n
  | .root fn ia cs => .root (listEmb_refl fun c hc => emb_refl c)
  | .frag cs => .frag (listEmb_refl fun c hc => emb_refl c)
  | .fld d cs => .fld (listEmb_refl fun c hc => emb_refl c)
termination_by n => qsize n
decreasing_by
  all_goals
    exact qsize_lt_of_mem_children (by simpa [QNode.children] using hc)

theorem listEmb_qsize {l₁ l₂ : List QNode} (h : ListEmb Emb l₁ l₂)
    (IH : ∀ b ∈ l₂, ∀ a, Emb a b → qsize a ≤ qsize b) :
    qsizeList l₁ ≤ qsizeList l₂ := by
  induction h with
  | nil => exact le_refl _
  | cons hr hl ih =>
    have h1 := IH _ (by simp) _ hr
    have h2 := ih fun b hb a ha => IH b (by simp [hb]) a ha
    simp only [qsizeList]
    omega
  | skip b hl ih =>
    have h2 := ih fun b2 hb a ha => IH b2 (by simp [hb]) a ha
    have := qsize_pos b
    simp only [qsizeList]
    omega

theorem emb_qsize : ∀ (b a : QNode), Emb a b → qsize a ≤ qsize b
  | b, a, h => by
    cases h with
    | root hl =>
      have := listEmb_qsize hl fun c hc a2 h2 =>
        emb_qsize c a2 h2
      simp only [qsize]
      omega
    | frag hl =>
      have := listEmb_qsize hl fun c hc a2 h2 =>
        emb_qsize c a2 h2
      simp only [qsize]
      omega
    | fld hl =>
      have := listEmb_qsize hl fun c hc a2 h2 =>
        emb_qsize c a2 h2
      simp only [qsize]
      omega
termination_by b => qsize b
decreasing_by
  all_goals
    exact qsize_lt_of_mem_children (by simpa [QNode.children] using hc)

theorem listEmb_trans : ∀ {l₂ l₃ : List QNode}, ListEmb Emb l₂ l₃ →
    ∀ {l₁ : List QNode}, ListEmb Emb l₁ l₂ →
    (∀ c ∈ l₃, ∀ a b, Emb a b → Emb b c → Emb a c) → ListEmb Emb l₁ l₃ := by
  intro l₂ l₃ h2
  induction h2 with
  | nil =>
    intro l₁ h1 _
    exact h1
  | cons hxy h2 ih =>
    intro l₁ h1 IH
    cases h1 with
    | cons hax h1 =>
      exact .cons (IH _ (by simp) _ _ hax hxy)
        (ih h1 fun c hc a b hab hbc => IH c (by simp [hc]) a b hab hbc)
    | skip _ h1 =>
      exact .skip _ (ih h1 fun c hc a b hab hbc => IH c (by simp [hc]) a b hab hbc)
  | skip c h2 ih =>
    intro l₁ h1 IH
    exact .skip _ (ih h1 fun c2 hc a b hab hbc => IH c2 (by simp [hc]) a b hab hbc)

theorem emb_trans : ∀ (c a b : QNode), Emb a b → Emb b c → Emb a c
  | .root fn ia ds, a, b, hab, hbc => by
    cases hbc with
    | root hl2 =>
      cases hab with
      | root hl1 =>
        exact .root (listEmb_trans hl2 hl1 fun y hy a2 b2 ha hb =>
          emb_trans y a2 b2 ha hb)
  | .frag ds, a, b, hab, hbc => by
    cases hbc with
    | frag hl2 =>
      cases hab with
      | frag hl1 =>
        exact .frag (listEmb_trans hl2 hl1 fun y hy a2 b2 ha hb =>
          emb_trans y a2 b2 ha hb)
  | .fld d ds, a, b, hab, hbc => by
    cases hbc with
    | fld hl2 =>
      cases hab with
      | fld hl1 =>
        exact .fld (listEmb_trans hl2 hl1 fun y hy a2 b2 ha hb =>
          emb_trans y a2 b2 ha hb)
termination_by c => qsize c
decreasing_by
  all_goals
    exact qsize_lt_of_mem_children (by simpa [QNode.children] using hy)

theorem emb_isRoot {a b : QNode} (h : Emb a b) : a.isRoot = b.isRoot := by
  cases h <;> simp [QNode.isRoot]

/-! Predicate membership lemmas. -/

theorem noRootInList_mem : ∀ {cs : List QNode}, noRootInList cs = true →
    ∀ {c : QNode}, c ∈ cs → noRootIn c = true
  | [], _, _, h => by cases h
  | b :: bs, hall, c, h => by
    simp only [noRootInList, Bool.and_eq_true] at hall
    rcases List.mem_cons.mp h with h1 | h2
    · subst h1
      exact hall.1
    · exact noRootInList_mem hall.2 h2

theorem noRootIn_not_root {c : QNode} (h : noRootIn c = true) : c.isRoot = false := by
  cases c <;> simp [noRootIn, QNode.isRoot] at h ⊢

theorem noRootIn_children {n : QNode} (h : noRootIn n = true) :
    ∀ {c : QNode}, c ∈ n.children → noRootIn c = true := by
  intro c hc
  cases n with
  | root fn ia cs => simp [noRootIn] at h
  | frag cs => exact noRootInList_mem (by simpa [noRootIn] using h) hc
  | fld d cs => exact noRootInList_mem (by simpa [noRootIn] using h) hc

theorem listEmb_noroot {l₁ l₂ : List QNode} (h : ListEmb Emb l₁ l₂)
    (hall : noRootInList l₂ = true)
    (IH : ∀ b ∈ l₂, ∀ a, Emb a b → noRootIn b = true → noRootIn a = true) :
    noRootInList l₁ = true := by
  induction h with
  | nil => exact hall
  | cons hr hl ih =>
    simp only [noRootInList, Bool.and_eq_true] at hall ⊢
    exact ⟨IH _ (by simp) _ hr hall.1,
      ih hall.2 fun b hb a ha h2 => IH b (by simp [hb]) a ha h2⟩
  | skip b hl ih =>
    simp only [noRootInList, Bool.and_eq_true] at hall
    exact ih hall.2 fun b2 hb a ha h2 => IH b2 (by simp [hb]) a ha h2

theorem emb_noroot : ∀ (b a : QNode), Emb a b → noRootIn b = true → noRootIn a = true
  | .root fn ia ds, _, _, hb => by simp [noRootIn] at hb
  | .frag ds, a, h, hb => by
    cases h with
    | frag hl =>
      simp only [noRootIn] at hb ⊢
      exact listEmb_noroot hl hb fun c hc a2 ha hn => emb_noroot c a2 ha hn
  | .fld d ds, a, h, hb => by
    cases h with
    | fld hl =>
      simp only [noRootIn] at hb ⊢
      exact listEmb_noroot hl hb fun c hc a2 ha hn => emb_noroot c a2 ha hn
termination_by b => qsize b
decreasing_by
  all_goals
    exact qsize_lt_of_mem_children (by simpa [QNode.children] using hc)

theorem noRequisiteInList_mem : ∀ {cs : List QNode}, noRequisiteInList cs = true →
    ∀ {c : QNode}, c ∈ cs → noRequisiteIn c = true
  | [], _, _, h => by cases h
  | b :: bs, hall, c, h => by
    simp only [noRequisiteInList, Bool.and_eq_true] at hall
    rcases List.mem_cons.mp h with h1 | h2
    · subst h1
      exact hall.1
    · exact noRequisiteInList_mem hall.2 h2

theorem okInList_mem : ∀ {scope : QNode} {cs : List QNode}, okInList scope cs = true →
    ∀ {c : QNode}, c ∈ cs → okIn scope c = true
  | _, [], _, _, h => by cases h
  | scope, b :: bs, hall, c, h => by
    simp only [okInList, Bool.and_eq_true] at hall
    rcases List.mem_cons.mp h with h1 | h2
    · subst h1
      exact hall.1
    · exact okInList_mem hall.2 h2

/-! Results of the visitor embed into the minuend. -/

theorem filterMap_listEmb : ∀ {ds : List (Option QNode)} {cs : List QNode},
    List.Forall₂ (fun o c => ∀ t, o = some t → Emb t c) ds cs →
    ListEmb Emb (ds.filterMap id) cs := by
  intro ds cs h
  induction h with
  | nil => exact .nil
  | @cons o c ds2 cs2 hoc hrest ih =>
    cases o with
    | none => simpa using ListEmb.skip c ih
    | some t =>
      simpa using ListEmb.cons (hoc t rfl) ih

theorem cloneNode_emb {n t : QNode} {mapped : List (Option QNode)}
    (hf : ListEmb Emb (mapped.filterMap id) n.children)
    (h : cloneNode n mapped = some t) : Emb t n := by
  simp only [cloneNode] at h
  split at h
  · cases h
  · split at h
    · cases h
      exact emb_refl n
    · cases h
      cases n with
      | root fn ia cs => exact .root (by simpa [QNode.children] using hf)
      | frag cs => exact .frag (by simpa [QNode.children] using hf)
      | fld d cs => exact .fld (by simpa [QNode.children] using hf)

theorem mapChildren_emb {visit : QNode → QNode → Option VisitRes} {sub : QNode}
    (hv : ∀ c r, visit sub c = some (.ok r) → ∀ t, r.1 = some t → Emb t c) :
    ∀ {cs : List QNode} {ds : List (Option QNode)} {emp : Bool},
      mapChildren visit sub cs = some (.ok (ds, emp)) →
      List.Forall₂ (fun o c => ∀ t, o = some t → Emb t c) ds cs := by
  intro cs
  induction cs with
  | nil =>
    intro ds emp h
    simp only [mapChildren, Option.some.injEq, Except.ok.injEq, Prod.mk.injEq] at h
    obtain ⟨h1, h2⟩ := h
    subst h1
    exact .nil
  | cons c cs ih =>
    intro ds emp h
    simp only [mapChildren] at h
    split at h
    · cases h
    · simp at h
    · next d emp1 heq =>
      split at h
      · cases h
      · simp at h
      · next ds2 emp2 hrec =>
        simp only [Option.some.injEq, Except.ok.injEq, Prod.mk.injEq] at h
        obtain ⟨h1, h2⟩ := h
        subst h1
        exact .cons (hv c (d, emp1) heq) (ih hrec)

theorem subtractChildrenA_emb {visit : QNode → QNode → Option VisitRes} {sub : QNode}
    (hv : ∀ c r, visit sub c = some (.ok r) → ∀ t, r.1 = some t → Emb t c)
    {n : QNode} {od : Option QNode} {emp : Bool}
    (h : subtractChildrenA visit sub n = some (.ok (od, emp))) :
    ∀ t, od = some t → Emb t n := by
  intro t hod
  subst hod
  simp only [subtractChildrenA] at h
  split at h
  · cases h
  · simp at h
  · next mapped emp2 heq =>
    simp only [Option.some.injEq, Except.ok.injEq, Prod.mk.injEq] at h
    obtain ⟨h1, h2⟩ := h
    exact cloneNode_emb (filterMap_listEmb (mapChildren_emb hv heq)) h1

theorem connLoop_emb {visit : QNode → QNode → Option VisitRes}
    (hv : ∀ sub2 c r, visit sub2 c = some (.ok r) → ∀ t, r.1 = some t → Emb t c) :
    ∀ {ranges : List QNode} {diff : QNode} {od : Option QNode} {emp : Bool},
      connLoop visit ranges diff = some (.ok (od, emp)) →
      ∀ t, od = some t → Emb t diff := by
  intro ranges
  induction ranges with
  | nil =>
    intro diff od emp h t hod
    simp only [connLoop, Option.some.injEq, Except.ok.injEq, Prod.mk.injEq] at h
    obtain ⟨h1, h2⟩ := h
    subst h1
    cases hod
    exact emb_refl diff
  | cons r rest ih =>
    intro diff od emp h t hod
    subst hod
    simp only [connLoop] at h
    split at h
    · cases h
    · simp at h
    · simp at h
    · next diff2 emp1 heq =>
      have hd2 : Emb diff2 diff :=
        subtractChildrenA_emb (fun c r2 h2 => hv r c r2 h2) heq diff2 rfl
      split at h
      · simp only [Option.some.injEq, Except.ok.injEq, Prod.mk.injEq] at h
        obtain ⟨h1, h2⟩ := h
        cases h1
        exact hd2
      · exact emb_trans diff t diff2 (ih h t rfl) hd2

theorem subtractConnectionA_emb {visit : QNode → QNode → Option VisitRes}
    (hv : ∀ sub2 c r, visit sub2 c = some (.ok r) → ∀ t, r.1 = some t → Emb t c)
    {sub n : QNode} {od : Option QNode} {emp : Bool}
    (h : subtractConnectionA visit sub n = some (.ok (od, emp))) :
    ∀ t, od = some t → Emb t n := by
  intro t hod
  subst hod
  simp only [subtractConnectionA] at h
  split at h
  · simp only [Option.some.injEq, Except.ok.injEq, Prod.mk.injEq] at h
    obtain ⟨h1, h2⟩ := h
    cases h1
    exact emb_refl n
  · exact connLoop_emb hv h t rfl

theorem subtractFieldA_emb {visit : QNode → QNode → Option VisitRes}
    (hv : ∀ sub2 c r, visit sub2 c = some (.ok r) → ∀ t, r.1 = some t → Emb t c)
    {sub n : QNode} {od : Option QNode} {emp : Bool}
    (h : subtractFieldA visit sub n = some (.ok (od, emp))) :
    ∀ t, od = some t → Emb t n := by
  intro t hod
  subst hod
  simp only [subtractFieldA] at h
  split at h
  · simp only [Option.some.injEq, Except.ok.injEq, Prod.mk.injEq] at h
    obtain ⟨h1, h2⟩ := h
    cases h1
    exact emb_refl n
  · next subField heq =>
    exact subtractChildrenA_emb (fun c r2 h2 => hv subField c r2 h2) h t rfl

theorem subtractScalar_fst (sub n : QNode) :
    (subtractScalar sub n).1 = none ∨ (subtractScalar sub n).1 = some n := by
  simp only [subtractScalar]
  split
  · split
    · exact Or.inl rfl
    · exact Or.inr rfl
  · exact Or.inr rfl

theorem visitF_emb : ∀ (f : Nat) (sub n : QNode) (r : Option QNode × Bool),
    visitF f sub n = some (.ok r) → ∀ t, r.1 = some t → Emb t n := by
  intro f
  induction f with
  | zero =>
    intro sub n r h
    simp [visitF] at h
  | succ f ih =>
    have hv : ∀ sub2 c r2, visitF f sub2 c = some (.ok r2) → ∀ u, r2.1 = some u → Emb u c :=
      fun sub2 c r2 h2 u hu => ih sub2 c r2 h2 u hu
    intro sub n r h t hod
    cases n with
    | root fn ia cs =>
      simp only [visitF] at h
      split at h
      · simp at h
      · split at h
        · simp only [Option.some.injEq, Except.ok.injEq] at h
          subst h
          cases hod
          exact emb_refl _
        · obtain ⟨od, emp⟩ := r
          exact subtractChildrenA_emb (fun c r2 h2 => hv sub c r2 h2) h t hod
    | frag cs =>
      simp only [visitF] at h
      obtain ⟨od, emp⟩ := r
      exact subtractChildrenA_emb (fun c r2 h2 => hv sub c r2 h2) h t hod
    | fld d cs =>
      simp only [visitF] at h
      split at h
      · cases h
      · simp at h
      · next diff emp1 heq =>
        have hdiff : ∀ u, diff = some u → Emb u (.fld d cs) := by
          intro u hu
          split at heq
          · simp only [Option.some.injEq, Except.ok.injEq] at heq
            rcases subtractScalar_fst sub (.fld d cs) with h1 | h1 <;> rw [heq] at h1 <;>
              simp only at h1 <;> rw [hu] at h1
            · cases h1
            · cases h1
              exact emb_refl _
          · split at heq
            · exact subtractConnectionA_emb hv heq u hu
            · exact subtractFieldA_emb hv heq u hu
        split at h
        · next t2 =>
          split at h
          · simp only [Option.some.injEq, Except.ok.injEq] at h
            subst h
            simp only at hod
            cases hod
            exact hdiff t rfl
          · simp only [Option.some.injEq, Except.ok.injEq] at h
            subst h
            simp at hod
        · simp only [Option.some.injEq, Except.ok.injEq] at h
          subst h
          simp at hod

/-! A null diff always comes with an empty state. -/

theorem subtractScalar_none_emp {sub n : QNode} {e : Bool}
    (h : subtractScalar sub n = (none, e)) : e = true := by
  simp only [subtractScalar] at h
  split at h
  · split at h
    · cases h
      rfl
    · cases h
  · cases h

theorem cloneNode_none {n : QNode} {mapped : List (Option QNode)}
    (h : cloneNode n mapped = none) : mapped.filterMap id = [] := by
  simp only [cloneNode] at h
  split at h
  · next hcond =>
    cases hnext : mapped.filterMap id with
    | nil => rfl
    | cons a l =>
      rw [hnext] at hcond
      simp [List.isEmpty] at hcond
  · split at h <;> cases h

theorem mapChildren_none_emp {visit : QNode → QNode → Option VisitRes} {sub : QNode} :
    ∀ {cs : List QNode} {ds : List (Option QNode)} {emp : Bool},
      (∀ c ∈ cs, ∀ e2, visit sub c = some (.ok (none, e2)) → e2 = true) →
      mapChildren visit sub cs = some (.ok (ds, emp)) →
      ds.filterMap id = [] → emp = true := by
  intro cs
  induction cs with
  | nil =>
    intro ds emp hv h hfm
    simp only [mapChildren, Option.some.injEq, Except.ok.injEq, Prod.mk.injEq] at h
    exact h.2.symm
  | cons c cs ih =>
    intro ds emp hv h hfm
    simp only [mapChildren] at h
    split at h
    · cases h
    · simp at h
    · next d emp1 heq =>
      split at h
      · cases h
      · simp at h
      · next ds2 emp2 hrec =>
        simp only [Option.some.injEq, Except.ok.injEq, Prod.mk.injEq] at h
        obtain ⟨h1, h2⟩ := h
        subst h1
        cases d with
        | some u => simp at hfm
        | none =>
          simp only [List.filterMap_cons] at hfm
          have he1 : emp1 = true := hv c (by simp) emp1 heq
          have he2 : emp2 = true :=
            ih (fun c2 hc2 e2 h3 => hv c2 (by simp [hc2]) e2 h3) hrec (by simpa using hfm)
          simp [← h2, he1, he2]

theorem subtractChildrenA_none_emp {visit : QNode → QNode → Option VisitRes}
    {sub n : QNode} {emp : Bool}
    (hv : ∀ c ∈ n.children, ∀ e2, visit sub c = some (.ok (none, e2)) → e2 = true)
    (h : subtractChildrenA visit sub n = some (.ok (none, emp))) : emp = true := by
  simp only [subtractChildrenA] at h
  split at h
  · cases h
  · simp at h
  · next mapped emp2 heq =>
    simp only [Option.some.injEq, Except.ok.injEq, Prod.mk.injEq] at h
    obtain ⟨h1, h2⟩ := h
    subst h2
    exact mapChildren_none_emp hv heq (cloneNode_none h1)

theorem connLoop_none_emp {visit : QNode → QNode → Option VisitRes}
    (hv : ∀ sub2 c e2, visit sub2 c = some (.ok (none, e2)) → e2 = true) :
    ∀ {ranges : List QNode} {diff : QNode} {emp : Bool},
      connLoop visit ranges diff = some (.ok (none, emp)) → emp = true := by
  intro ranges
  induction ranges with
  | nil =>
    intro diff emp h
    simp [connLoop] at h
  | cons r rest ih =>
    intro diff emp h
    simp only [connLoop] at h
    split at h
    · cases h
    · simp at h
    · next emp1 heq =>
      simp only [Option.some.injEq, Except.ok.injEq, Prod.mk.injEq] at h
      rw [← h.2]
      exact subtractChildrenA_none_emp (fun c hc e2 h2 => hv r c e2 h2) heq
    · split at h
      · simp at h
      · exact ih h

theorem subtractConnectionA_none_emp {visit : QNode → QNode → Option VisitRes}
    (hv : ∀ sub2 c e2, visit sub2 c = some (.ok (none, e2)) → e2 = true)
    {sub n : QNode} {emp : Bool}
    (h : subtractConnectionA visit sub n = some (.ok (none, emp))) : emp = true := by
  simp only [subtractConnectionA] at h
  split at h
  · simp at h
  · exact connLoop_none_emp hv h

theorem subtractFieldA_none_emp {visit : QNode → QNode → Option VisitRes}
    (hv : ∀ sub2 c e2, visit sub2 c = some (.ok (none, e2)) → e2 = true)
    {sub n : QNode} {emp : Bool}
    (h : subtractFieldA visit sub n = some (.ok (none, emp))) : emp = true := by
  simp only [subtractFieldA] at h
  split at h
  · simp at h
  · next subField heq =>
    exact subtractChildrenA_none_emp (fun c hc e2 h2 => hv subField c e2 h2) h

theorem visitF_none_emp : ∀ (f : Nat) (sub n : QNode) (emp : Bool),
    visitF f sub n = some (.ok (none, emp)) → emp = true := by
  intro f
  induction f with
  | zero =>
    intro sub n emp h
    simp [visitF] at h
  | succ f ih =>
    have hv : ∀ sub2 c e2, visitF f sub2 c = some (.ok (none, e2)) → e2 = true :=
      fun sub2 c e2 h2 => ih sub2 c e2 h2
    intro sub n emp h
    cases n with
    | root fn ia cs =>
      simp only [visitF] at h
      split at h
      · simp at h
      · split at h
        · simp at h
        · exact subtractChildrenA_none_emp (fun c hc e2 h2 => hv sub c e2 h2) h
    | frag cs =>
      simp only [visitF] at h
      exact subtractChildrenA_none_emp (fun c hc e2 h2 => hv sub c e2 h2) h
    | fld d cs =>
      simp only [visitF] at h
      split at h
      · cases h
      · simp at h
      · next diff emp1 heq =>
        split at h
        · next t2 =>
          split at h
          · simp at h
          · next hc =>
            simp only [Option.some.injEq, Except.ok.injEq, Prod.mk.injEq] at h
            rw [← h.2]
            by_cases hb : emp1 = true
            · exact hb
            · exfalso
              rw [Bool.not_eq_true] at hb
              simp [hb] at hc
        · simp only [Option.some.injEq, Except.ok.injEq, Prod.mk.injEq] at h
          rw [← h.2]
          split at heq
          · simp only [Option.some.injEq, Except.ok.injEq] at heq
            exact subtractScalar_none_emp heq
          · split at heq
            · exact subtractConnectionA_none_emp hv heq
            · exact subtractFieldA_none_emp hv heq

/-! Fuel adequacy: the size-sum fuel always suffices. -/

theorem mapChildren_total {visit : QNode → QNode → Option VisitRes} {sub : QNode} :
    ∀ {cs : List QNode}, (∀ c ∈ cs, (visit sub c).isSome = true) →
      (mapChildren visit sub cs).isSome = true := by
  intro cs
  induction cs with
  | nil => intro hv; simp [mapChildren]
  | cons c cs ih =>
    intro hv
    obtain ⟨v, hvc⟩ := Option.isSome_iff_exists.mp (hv c (by simp))
    cases v with
    | error e => simp [mapChildren, hvc]
    | ok r =>
      obtain ⟨d, emp1⟩ := r
      obtain ⟨v2, hrec⟩ :=
        Option.isSome_iff_exists.mp (ih fun c2 hc2 => hv c2 (by simp [hc2]))
      cases v2 with
      | error e => simp [mapChildren, hvc, hrec]
      | ok r2 =>
        obtain ⟨ds2, emp2⟩ := r2
        simp [mapChildren, hvc, hrec]

theorem subtractChildrenA_total {visit : QNode → QNode → Option VisitRes} {sub n : QNode}
    (hv : ∀ c ∈ n.children, (visit sub c).isSome = true) :
    (subtractChildrenA visit sub n).isSome = true := by
  obtain ⟨v, hmc⟩ := Option.isSome_iff_exists.mp (mapChildren_total hv)
  cases v with
  | error e => simp [subtractChildrenA, hmc]
  | ok r =>
    obtain ⟨ds, emp⟩ := r
    simp [subtractChildrenA, hmc]

theorem connLoop_total {f : Nat} {sub n : QNode}
    (hv : ∀ sub2 c, qsize c + qsize sub2 ≤ f → (visitF f sub2 c).isSome = true)
    (hfuel : qsize n + qsize sub ≤ f + 1) :
    ∀ {ranges : List QNode}, (∀ r2 ∈ ranges, r2 ∈ sub.children) →
      ∀ {diff : QNode}, qsize diff ≤ qsize n →
      (connLoop (visitF f) ranges diff).isSome = true := by
  intro ranges
  induction ranges with
  | nil => intro hmem diff hd; simp [connLoop]
  | cons r rest ih =>
    intro hmem diff hd
    have hrs : qsize r < qsize sub := qsize_lt_of_mem_children (hmem r (by simp))
    have hsub : (subtractChildrenA (visitF f) r diff).isSome = true := by
      apply subtractChildrenA_total
      intro c hc
      have hcd := qsize_lt_of_mem_children hc
      exact hv r c (by omega)
    obtain ⟨v, heq⟩ := Option.isSome_iff_exists.mp hsub
    cases v with
    | error e => simp [connLoop, heq]
    | ok r2 =>
      obtain ⟨od, emp1⟩ := r2
      cases od with
      | none => simp [connLoop, heq]
      | some diff2 =>
        have hd2 : qsize diff2 ≤ qsize n := by
          have hEmb : Emb diff2 diff :=
            subtractChildrenA_emb
              (fun c r3 h3 => visitF_emb f r c r3 h3) heq diff2 rfl
          have := emb_qsize diff diff2 hEmb
          omega
        simp only [connLoop, heq]
        split
        · simp
        · exact ih (fun r2 hr2 => hmem r2 (by simp [hr2])) hd2

theorem visitF_total : ∀ (f : Nat) (sub n : QNode), qsize n + qsize sub ≤ f →
    (visitF f sub n).isSome = true := by
  intro f
  induction f with
  | zero =>
    intro sub n hfuel
    have h1 := qsize_pos n
    have h2 := qsize_pos sub
    omega
  | succ f ih =>
    intro sub n hfuel
    cases n with
    | root fn ia cs =>
      simp only [visitF]
      split
      · simp
      · split
        · simp
        · apply subtractChildrenA_total
          intro c hc
          have := qsize_lt_of_mem_children hc
          exact ih sub c (by omega)
    | frag cs =>
      simp only [visitF]
      apply subtractChildrenA_total
      intro c hc
      have := qsize_lt_of_mem_children hc
      exact ih sub c (by omega)
    | fld d cs =>
      simp only [visitF]
      have hd : (if (!d.canHaveSubselections) = true then
          some (.ok (subtractScalar sub (.fld d cs)))
        else if d.isConnection = true then subtractConnectionA (visitF f) sub (.fld d cs)
        else subtractFieldA (visitF f) sub (.fld d cs)).isSome = true := by
        split
        · simp
        · split
          · simp only [subtractConnectionA]
            split
            · simp
            · apply connLoop_total (fun sub2 c h => ih sub2 c h) hfuel
              · intro r2 hr2
                exact List.mem_of_mem_filter hr2
              · exact le_refl _
          · simp only [subtractFieldA]
            split
            · simp
            · next subField hgf =>
              apply subtractChildrenA_total
              intro c hc
              have h1 := qsize_lt_of_mem_children hc
              have h2 := getField_qsize_lt hgf
              exact ih subField c (by omega)
      obtain ⟨v, hveq⟩ := Option.isSome_iff_exists.mp hd
      rw [hveq]
      cases v with
      | error e => simp
      | ok r =>
        obtain ⟨diff, emp⟩ := r
        cases diff with
        | none => simp
        | some t2 =>
          simp only []
          split <;> simp

/-! No invariant failure when the minuend has no root strictly inside and a
root minuend faces a root subtrahend. -/

theorem mapChildren_noerr {visit : QNode → QNode → Option VisitRes} {sub : QNode} :
    ∀ {cs : List QNode}, (∀ c ∈ cs, ∀ e, visit sub c ≠ some (.error e)) →
      ∀ e, mapChildren visit sub cs ≠ some (.error e) := by
  intro cs
  induction cs with
  | nil =>
    intro hv e h
    simp [mapChildren] at h
  | cons c cs ih =>
    intro hv e h
    simp only [mapChildren] at h
    split at h
    · cases h
    · next e2 heq =>
      simp only [Option.some.injEq, Except.error.injEq] at h
      subst h
      exact hv c (by simp) e2 heq
    · split at h
      · cases h
      · next e2 hrec =>
        simp only [Option.some.injEq, Except.error.injEq] at h
        subst h
        exact ih (fun c2 hc2 e3 => hv c2 (by simp [hc2]) e3) e2 hrec
      · simp at h

theorem subtractChildrenA_noerr {visit : QNode → QNode → Option VisitRes} {sub n : QNode}
    (hv : ∀ c ∈ n.children, ∀ e, visit sub c ≠ some (.error e)) :
    ∀ e, subtractChildrenA visit sub n ≠ some (.error e) := by
  intro e h
  simp only [subtractChildrenA] at h
  split at h
  · cases h
  · next e2 heq =>
    simp only [Option.some.injEq, Except.error.injEq] at h
    subst h
    exact mapChildren_noerr hv e2 heq
  · simp at h

theorem connLoop_noerr {visit : QNode → QNode → Option VisitRes}
    (hverr : ∀ sub2 c e, noRootIn c = true → visit sub2 c ≠ some (.error e))
    (hvemb : ∀ sub2 c r, visit sub2 c = some (.ok r) → ∀ t, r.1 = some t → Emb t c) :
    ∀ {ranges : List QNode} {diff : QNode}, noRootIn diff = true →
      ∀ e, connLoop visit ranges diff ≠ some (.error e) := by
  intro ranges
  induction ranges with
  | nil =>
    intro diff hnr e h
    simp [connLoop] at h
  | cons r rest ih =>
    intro diff hnr e h
    simp only [connLoop] at h
    split at h
    · cases h
    · next e2 heq =>
      simp only [Option.some.injEq, Except.error.injEq] at h
      subst h
      exact subtractChildrenA_noerr
        (fun c hc e3 => hverr r c e3 (noRootIn_children hnr hc)) e2 heq
    · simp at h
    · next diff2 emp1 heq =>
      split at h
      · simp at h
      · have hEmb : Emb diff2 diff :=
          subtractChildrenA_emb (fun c r2 h2 => hvemb r c r2 h2) heq diff2 rfl
        exact ih (emb_noroot diff diff2 hEmb hnr) e h

theorem visitF_noerr : ∀ (f : Nat) (sub n : QNode),
    (n.isRoot = true → sub.isRoot = true ∧ noRootInList n.children = true) →
    (n.isRoot = false → noRootIn n = true) →
    ∀ e, visitF f sub n ≠ some (.error e) := by
  intro f
  induction f with
  | zero =>
    intro sub n h1 h2 e h
    simp [visitF] at h
  | succ f ih =>
    have hverr : ∀ sub2 c e, noRootIn c = true → visitF f sub2 c ≠ some (.error e) := by
      intro sub2 c e hc
      exact ih sub2 c
        (fun hr => absurd hr (by simp [noRootIn_not_root hc]))
        (fun _ => hc) e
    intro sub n h1 h2 e h
    cases n with
    | root fn ia cs =>
      obtain ⟨hsr, hnrl⟩ := h1 rfl
      simp only [visitF] at h
      split at h
      · next hcond => simp [hsr] at hcond
      · split at h
        · simp at h
        · exact subtractChildrenA_noerr
            (fun c hc e2 => hverr sub c e2 (noRootInList_mem hnrl hc)) e h
    | frag cs =>
      have hnr := h2 rfl
      simp only [noRootIn] at hnr
      simp only [visitF] at h
      exact subtractChildrenA_noerr
        (fun c hc e2 => hverr sub c e2 (noRootInList_mem hnr (by simpa using hc))) e h
    | fld d cs =>
      have hnr := h2 rfl
      have hnrl : noRootInList cs = true := by simpa [noRootIn] using hnr
      simp only [visitF] at h
      split at h
      · cases h
      · next e2 heq =>
        simp only [Option.some.injEq, Except.error.injEq] at h
        subst h
        split at heq
        · simp at heq
        · split at heq
          · simp only [subtractConnectionA] at heq
            split at heq
            · simp at heq
            · exact connLoop_noerr hverr
                (fun sub2 c r h3 => visitF_emb f sub2 c r h3) hnr e2 heq
          · simp only [subtractFieldA] at heq
            split at heq
            · simp at heq
            · next subField hgf =>
              exact subtractChildrenA_noerr
                (fun c hc e3 => hverr subField c e3
                  (noRootInList_mem hnrl (by simpa using hc))) e2 heq
      · next diff emp1 heq =>
        split at h
        · split at h <;> simp at h
        · simp at h

/-! Claim C7: roots with different field names or different identifying
arguments do not overlap and the minuend is returned as is. -/

/-- C7: for Root query trees whose root field names differ or whose
identifying arguments are not deep-value equal, subtractRelayQuery returns
the minuend itself unchanged. -/
theorem claim_C7_no_overlap_identity (fn fn2 : String) (ia ia2 : Option Call)
    (cs cs2 : List QNode) (h : fn ≠ fn2 ∨ ia ≠ ia2) :
    subtractRelayQuery (.root fn ia cs) (.root fn2 ia2 cs2) =
      .ok (some (.root fn ia cs)) := by
  obtain ⟨f, hf⟩ := fuelBound_succ (.root fn ia cs) (.root fn2 ia2 cs2)
  have hcsr : canSubtractRoot (.root fn ia cs) (.root fn2 ia2 cs2) = false := by
    simp only [canSubtractRoot, QNode.getFieldName, QNode.getIdentifyingArg]
    rcases h with h | h <;> simp [h]
  unfold subtractRelayQuery subtractVisit
  rw [hf]
  simp [visitF, QNode.isRoot, hcsr]

/-- C7 witness: a concrete pair of roots with different field names. -/
theorem claim_C7_witness :
    subtractRelayQuery (.root "me" none []) (.root "node" none []) =
      .ok (some (.root "me" none [])) :=
  claim_C7_no_overlap_identity "me" "node" none none [] [] (Or.inl (by decide))

/-! Claim C9: subtracting a non-root from a root is an invariant failure. -/

/-- C9: whenever the minuend is a Root and the subtrahend is not, subtraction
fails with the visitRoot invariant violation instead of silently returning. -/
theorem claim_C9_non_root_invariant (m s : QNode) (hm : m.isRoot = true)
    (hs : s.isRoot = false) :
    subtractRelayQuery m s = .error rootInvariantMsg := by
  obtain ⟨fn, ia, cs, rfl⟩ : ∃ fn ia cs, m = .root fn ia cs := by
    cases m with
    | root fn ia cs => exact ⟨fn, ia, cs, rfl⟩
    | frag cs => simp [QNode.isRoot] at hm
    | fld d cs => simp [QNode.isRoot] at hm
  obtain ⟨f, hf⟩ := fuelBound_succ (.root fn ia cs) s
  unfold subtractRelayQuery subtractVisit
  rw [hf]
  simp [visitF, hs]

/-- C9 witness: a concrete root minuend and fragment subtrahend. -/
theorem claim_C9_witness :
    subtractRelayQuery (.root "me" none []) (.frag []) = .error rootInvariantMsg :=
  claim_C9_non_root_invariant (.root "me" none []) (.frag []) (by decide) (by decide)

/-! Claim C1 (amended): the tri-state contract of subtractRelayQuery. -/

/-- C1 (amended): for Root trees with no Root strictly below the minuend,
subtraction returns exactly one of null, the minuend itself, or a new tree
that embeds into the minuend preserving its shape and child ordering. -/
theorem claim_C1_tri_state (m s : QNode) (hm : m.isRoot = true) (hs : s.isRoot = true)
    (hnr : noRootBelow m = true) :
    subtractRelayQuery m s = .ok none ∨ subtractRelayQuery m s = .ok (some m) ∨
      ∃ t, subtractRelayQuery m s = .ok (some t) ∧ t ≠ m ∧ Emb t m := by
  have htot := visitF_total (fuelBound m s) s m (le_refl _)
  obtain ⟨v, hveq⟩ := Option.isSome_iff_exists.mp htot
  have hsv : subtractVisit m s = v := by simp [subtractVisit, hveq]
  cases v with
  | error e =>
    exfalso
    refine visitF_noerr (fuelBound m s) s m ?_ ?_ e hveq
    · intro _
      exact ⟨hs, by simpa [noRootBelow] using hnr⟩
    · intro h0
      rw [hm] at h0
      cases h0
  | ok r =>
    obtain ⟨d, emp⟩ := r
    by_cases hemp : emp = true
    · left
      subst hemp
      simp [subtractRelayQuery, hsv]
    · have hempf : emp = false := by revert hemp; cases emp <;> simp
      subst hempf
      cases d with
      | none =>
        exact absurd (visitF_none_emp _ _ _ _ hveq) (by simp)
      | some t =>
        have hEmb : Emb t m := visitF_emb _ s m (some t, false) hveq t rfl
        have htr : t.isRoot = true := by rw [emb_isRoot hEmb, hm]
        have hq : subtractRelayQuery m s = .ok (some t) := by
          simp [subtractRelayQuery, hsv, htr]
        by_cases htm : t = m
        · right
          left
          rw [htm] at hq
          exact hq
        · right
          right
          exact ⟨t, hq, htm, hEmb⟩

/-- C1 witness: the tri-state conclusion at a concrete pair of roots. -/
theorem claim_C1_witness :
    subtractRelayQuery selfRoot viewerFirst10 = .ok none ∨
      subtractRelayQuery selfRoot viewerFirst10 = .ok (some selfRoot) ∨
      ∃ t, subtractRelayQuery selfRoot viewerFirst10 = .ok (some t) ∧ t ≠ selfRoot ∧
        Emb t selfRoot :=
  claim_C1_tri_state selfRoot viewerFirst10 (by decide) (by decide) (by decide)

/-! Claim C8 (amended): self-subtraction of a well-formed, requisite-free
query is null. -/

theorem mapChildren_covered {visit : QNode → QNode → Option VisitRes} {scope : QNode} :
    ∀ {cs : List QNode}, (∀ c ∈ cs, visit scope c = some (.ok (none, true))) →
      ∃ ds, mapChildren visit scope cs = some (.ok (ds, true)) ∧ ds.filterMap id = [] := by
  intro cs
  induction cs with
  | nil => intro hv; exact ⟨[], by simp [mapChildren], rfl⟩
  | cons c cs ih =>
    intro hv
    obtain ⟨ds2, hrec, hfm⟩ := ih fun c2 hc2 => hv c2 (by simp [hc2])
    refine ⟨none :: ds2, ?_, by simpa using hfm⟩
    simp [mapChildren, hv c (by simp), hrec]

theorem subtractChildrenA_covered {visit : QNode → QNode → Option VisitRes}
    {scope n : QNode}
    (hv : ∀ c ∈ n.children, visit scope c = some (.ok (none, true))) :
    subtractChildrenA visit scope n = some (.ok (none, true)) := by
  obtain ⟨ds, hmc, hfm⟩ := mapChildren_covered hv
  simp [subtractChildrenA, hmc, cloneNode, hfm]

/-- A self-contained requisite-free child subtracts to nothing against its
scope. -/
theorem okIn_visit : ∀ (f : Nat) (scope c : QNode), okIn scope c = true →
    noRequisiteIn c = true → qsize c + qsize scope ≤ f →
    visitF f scope c = some (.ok (none, true)) := by
  intro f
  induction f with
  | zero =>
    intro scope c _ _ hfuel
    have := qsize_pos c
    have := qsize_pos scope
    omega
  | succ f ih =>
    intro scope c hok hreq hfuel
    cases c with
    | root fn ia cs => simp [okIn] at hok
    | frag cs =>
      simp only [visitF]
      apply subtractChildrenA_covered
      intro c2 hc2
      have hc2m : c2 ∈ cs := by simpa [QNode.children] using hc2
      have hok2 := okInList_mem (by simpa [okIn] using hok) hc2m
      have hrq2 := noRequisiteInList_mem (by simpa [noRequisiteIn] using hreq) hc2m
      have hsz := qsize_lt_of_mem_children hc2
      exact ih scope c2 hok2 hrq2 (by omega)
    | fld d cs =>
      have hreqd : d.isRequisite = false ∧ noRequisiteInList cs = true := by
        have := hreq
        simp only [noRequisiteIn, Bool.and_eq_true, Bool.not_eq_true'] at this
        exact this
      by_cases hsc : d.canHaveSubselections = false
      · have hgf : (getField scope (.fld d cs)).isSome = true := by
          simpa [okIn, hsc] using hok
        obtain ⟨g, hg⟩ := Option.isSome_iff_exists.mp hgf
        simp [visitF, hsc, subtractScalar, hg, QNode.fieldIsRequisite, hreqd.1]
      · have hsct : d.canHaveSubselections = true := by
          revert hsc
          cases d.canHaveSubselections <;> simp
        by_cases hic : d.isConnection = true
        · have hok2 : getMatchingRangeFields (.fld d cs) scope = [.fld d cs] ∧
              okInList (.fld d cs) cs = true := by
            simpa [okIn, hsct, hic] using hok
          have hmemc : (QNode.fld d cs) ∈ scope.children := by
            have hmr : (QNode.fld d cs) ∈ getMatchingRangeFields (.fld d cs) scope := by
              rw [hok2.1]
              simp
            exact List.mem_of_mem_filter hmr
          have hszc : qsize (QNode.fld d cs) < qsize scope := qsize_lt_of_mem_children hmemc
          have hcov : subtractChildrenA (visitF f) (.fld d cs) (.fld d cs) =
              some (.ok (none, true)) := by
            apply subtractChildrenA_covered
            intro c2 hc2
            have hc2m : c2 ∈ cs := by simpa [QNode.children] using hc2
            have hok3 := okInList_mem hok2.2 hc2m
            have hrq3 := noRequisiteInList_mem hreqd.2 hc2m
            have hsz3 := qsize_lt_of_mem_children hc2
            exact ih _ c2 hok3 hrq3 (by omega)
          simp [visitF, hsct, hic, subtractConnectionA, hok2.1, connLoop, hcov]
        · have hicf : d.isConnection = false := by
            revert hic
            cases d.isConnection <;> simp
          have hok2 : getField scope (.fld d cs) = some (.fld d cs) ∧
              okInList (.fld d cs) cs = true := by
            simpa [okIn, hsct, hicf] using hok
          have hszc : qsize (QNode.fld d cs) < qsize scope := getField_qsize_lt hok2.1
          have hcov : subtractChildrenA (visitF f) (.fld d cs) (.fld d cs) =
              some (.ok (none, true)) := by
            apply subtractChildrenA_covered
            intro c2 hc2
            have hc2m : c2 ∈ cs := by simpa [QNode.children] using hc2
            have hok3 := okInList_mem hok2.2 hc2m
            have hrq3 := noRequisiteInList_mem hreqd.2 hc2m
            have hsz3 := qsize_lt_of_mem_children hc2
            exact ih _ c2 hok3 hrq3 (by omega)
          simp [visitF, hsct, hicf, subtractFieldA, hok2.1, hcov]

/-- C8 (amended): for a well-formed Root in which every child is
self-contained and no field is requisite, subtracting the query from itself
yields null. -/
theorem claim_C8_self_subtraction (fn : String) (ia : Option Call) (cs : List QNode)
    (hok : okInList (.root fn ia cs) cs = true)
    (hreq : noRequisiteInList cs = true) :
    subtractRelayQuery (.root fn ia cs) (.root fn ia cs) = .ok none := by
  have hcsr : canSubtractRoot (.root fn ia cs) (.root fn ia cs) = true := by
    simp [canSubtractRoot]
  obtain ⟨f, hf⟩ := fuelBound_succ (.root fn ia cs) (.root fn ia cs)
  simp only [fuelBound] at hf
  have hcov : subtractChildrenA (visitF f) (.root fn ia cs) (.root fn ia cs) =
      some (.ok (none, true)) := by
    apply subtractChildrenA_covered
    intro c hc
    have hcm : c ∈ cs := by simpa [QNode.children] using hc
    have hok2 := okInList_mem hok hcm
    have hrq2 := noRequisiteInList_mem hreq hcm
    have hsz := qsize_lt_of_mem_children hc
    exact okIn_visit f _ c hok2 hrq2 (by omega)
  unfold subtractRelayQuery subtractVisit
  simp only [fuelBound]
  rw [hf]
  simp [visitF, QNode.isRoot, hcsr, hcov]

/-- C8 witness: a concrete well-formed requisite-free query subtracted from
itself. -/
theorem claim_C8_witness : subtractRelayQuery selfRoot selfRoot = .ok none :=
  claim_C8_self_subtraction "user" (some ⟨"id", .vInt 4⟩)
    [.fld (scalarF "name") [],
      .fld (plainF "profile") [.fld (scalarF "bio") []],
      friendsFirst 3]
    (by decide) (by decide)

/-! Claim C5: requisite scalar retention and the emptiness accounting. -/

/-- C5: a covered requisite scalar field is always retained, and the visit
marks it empty exactly when it is neither a ref-query dependency nor aliased;
a ref-query dependency or an aliased field is never counted as empty. -/
theorem claim_C5_requisite_retention (sub : QNode) (d : FieldData) (cs : List QNode)
    (hscalar : d.canHaveSubselections = false) (hreq : d.isRequisite = true)
    (hcov : (getField sub (.fld d cs)).isSome = true) :
    subtractVisit (.fld d cs) sub = .ok (some (.fld d cs), isEmptyField (.fld d cs)) ∧
      isEmptyField (.fld d cs) =
        (!d.isRefQueryDependency && decide (d.applicationName = d.schemaName)) := by
  obtain ⟨f, hf⟩ := fuelBound_succ (.fld d cs) sub
  obtain ⟨g, hg⟩ := Option.isSome_iff_exists.mp hcov
  constructor
  · unfold subtractVisit
    rw [hf]
    simp [visitF, hscalar, subtractScalar, hg, QNode.fieldIsRequisite, hreq]
  · simp [isEmptyField, hscalar, hreq]

/-- C5 witness: an aliased requisite scalar fully present in the subtrahend
is retained and counted as non-empty. -/
theorem claim_C5_witness :
    subtractVisit (.fld reqAliasedField []) aliasedRoot =
        .ok (some (.fld reqAliasedField []), isEmptyField (.fld reqAliasedField [])) ∧
      isEmptyField (.fld reqAliasedField []) =
        (!reqAliasedField.isRefQueryDependency &&
          decide (reqAliasedField.applicationName = reqAliasedField.schemaName)) :=
  claim_C5_requisite_retention aliasedRoot reqAliasedField [] (by decide) (by decide)
    (by decide)

/-! Claim C2: range coverage. The claim as stated compares arguments as
name-value collections; the code compares the two argument lists
positionally, so two ranges with identical argument multisets in a different
order are not considered covering. -/

/-- C2 counterexample: the same arguments in a different order — every
non-pagination argument equal by value and the pagination count equal — yet
the range is not considered covered, while the identical ordering is. -/
theorem claim_C2_counterexample :
    List.Perm (connF "friends" [⟨"orderby", .vStr "top"⟩, ⟨"first", .vInt 10⟩]).calls
        (connF "friends" [⟨"first", .vInt 10⟩, ⟨"orderby", .vStr "top"⟩]).calls ∧
      canSubtractField rangeOrderbyFirst rangeFirstOrderby = false ∧
      canSubtractField rangeOrderbyFirst rangeOrderbyFirst = true := by
  refine ⟨?_, by decide, by decide⟩
  exact List.Perm.swap _ _ _

/-- The positional tail check of canSubtractField holds on any argument list
zipped with itself when no entry is named first or last. -/
theorem zip_self_all_true (others : List Call)
    (h : ∀ cl ∈ others, cl.name ≠ "first" ∧ cl.name ≠ "last") :
    ((others.zip others).all fun p =>
      if p.1.name ≠ p.2.name then false
      else if p.1.name = "first" ∨ p.1.name = "last" then pagArgLe p.1.value p.2.value
      else p.1.value = p.2.value) = true := by
  induction others with
  | nil => rfl
  | cons c cs ih =>
    have hc := h c (by simp)
    have hrest := ih fun cl hcl => h cl (by simp [hcl])
    simp only [List.zip_cons_cons, List.all_cons, hrest, Bool.and_true]
    simp [hc.1, hc.2]

/-- C2 amended: coverage compares the argument lists positionally — the
minuend range is covered by a sibling with the same schema name and argument
lists of the same length aligned by name, where a first or last argument is
compared by parseInt inequality (minuend at most subtrahend) and every other
argument by exact value equality; in particular first 10 is fully covered by
first 20 and first 20 is not covered at all by first 10. -/
theorem claim_C2_range_coverage :
    (∀ dir : String, dir = "first" ∨ dir = "last" →
      ∀ (sn an1 an2 : String) (others : List Call),
        (∀ cl ∈ others, cl.name ≠ "first" ∧ cl.name ≠ "last") →
        ∀ (a b : Int) (r1 rd1 ch1 co1 r2 rd2 ch2 co2 : Bool) (cs ds : List QNode),
          canSubtractField
              (.fld ⟨sn, an1, ⟨dir, .vInt a⟩ :: others, r1, rd1, ch1, co1⟩ cs)
              (.fld ⟨sn, an2, ⟨dir, .vInt b⟩ :: others, r2, rd2, ch2, co2⟩ ds) =
            decide (a ≤ b)) ∧
    (∀ (nm : String) (v w : CallValue), nm ≠ "first" → nm ≠ "last" → v ≠ w →
      ∀ (sn an1 an2 : String) (r1 rd1 ch1 co1 r2 rd2 ch2 co2 : Bool) (cs ds : List QNode),
        canSubtractField
            (.fld ⟨sn, an1, [⟨nm, v⟩], r1, rd1, ch1, co1⟩ cs)
            (.fld ⟨sn, an2, [⟨nm, w⟩], r2, rd2, ch2, co2⟩ ds) = false) ∧
    subtractRelayQuery viewerFirst10 viewerFirst20 = .ok none ∧
    subtractRelayQuery viewerFirst20 viewerFirst10 = .ok (some viewerFirst20) := by
  refine ⟨?_, ?_, by decide, by decide⟩
  · intro dir hdir sn an1 an2 others hothers a b r1 rd1 ch1 co1 r2 rd2 ch2 co2 cs ds
    simp only [canSubtractField]
    rw [if_neg (by simp), if_neg (by simp)]
    rw [List.zip_cons_cons, List.all_cons, zip_self_all_true others hothers]
    have hd : (dir = "first" ∨ dir = "last") = True := by simp [hdir]
    simp [hd, pagArgLe, parseIntVal]
  · intro nm v w h1 h2 hvw sn an1 an2 r1 rd1 ch1 co1 r2 rd2 ch2 co2 cs ds
    simp only [canSubtractField]
    rw [if_neg (by simp), if_neg (by simp)]
    simp [h1, h2, hvw]

/-- C2 witness: the amended coverage rule instantiated at first 10 against
first 20. -/
theorem claim_C2_witness :
    canSubtractField (friendsFirst 10) (friendsFirst 20) = decide ((10 : Int) ≤ 20) :=
  claim_C2_range_coverage.1 "first" (Or.inl rfl) "friends" "friends" "friends" []
    (by simp) 10 20 false false true true false false true true _ _

/-! Claim C1 counterexample: an aliased requisite scalar that is fully
present in the subtrahend keeps the result non-null, and the minuend is
returned by reference even though its only field overlaps. -/

/-- C1 counterexample: every field below the minuend is present in the
subtrahend (the lookup finds the single field), yet the subtraction returns
the minuend itself rather than null. -/
theorem claim_C1_counterexample :
    (getField aliasedRoot (.fld reqAliasedField [])).isSome = true ∧
      aliasedRoot.children = [.fld reqAliasedField []] ∧
      subtractRelayQuery aliasedRoot aliasedRoot = .ok (some aliasedRoot) := by
  exact ⟨by decide, by decide, by decide⟩

/-! Claim C8 counterexample: duplicate sibling fields with the same schema
name and arguments but different children defeat self-subtraction, because
the lookup always returns the first match. -/

/-- C8 counterexample: a requisite-free tree whose self-subtraction is not
null. -/
theorem claim_C8_counterexample :
    noRequisiteIn dupRoot = true ∧
      subtractRelayQuery dupRoot dupRoot = .ok (some (.root "viewer" none [dupX "b"])) ∧
      subtractRelayQuery dupRoot dupRoot ≠ .ok none := by
  exact ⟨by decide, by decide, by decide⟩

/-! Claim C6: resetPending clears only the registry. -/

/-- C6: resetPending empties the current registry (hasPendingQueries is false
immediately afterwards) and changes nothing else: the fetch nodes, the issued
network operations and the applied payloads are untouched, and a later
network success still hands its payload to the store-application collaborator
exactly as it would have without the reset. -/
theorem claim_C6_reset_does_not_cancel {Q : Type} (st : TrackerState Q) :
    hasPendingQueries (resetPending st) = false ∧
    (resetPending st).fetches = st.fetches ∧
    (resetPending st).issuedFetches = st.issuedFetches ∧
    (resetPending st).applied = st.applied ∧
    (∀ (id : Nat) (sq : Q) (resp : String),
      (handleSubtractedQuerySuccessT (resetPending st) id sq resp).applied =
        (handleSubtractedQuerySuccessT st id sq resp).applied ∧
      (handleSubtractedQuerySuccessT (resetPending st) id sq resp).fetches =
        (handleSubtractedQuerySuccessT st id sq resp).fetches) := by
  refine ⟨?_, rfl, rfl, rfl, ?_⟩
  · simp [hasPendingQueries, currentEntries, resetPending, lookupA]
  · intro id sq resp
    cases hl : lookupA st.fetches id <;>
      simp [handleSubtractedQuerySuccessT, resetPending, hl]

/-! Claim C3: the settlement protocol of a fetch node. -/

theorem updateRD_frame {Q : Type} (n : PendingFetchNode Q) :
    (updateResolvedDeferredN n).query = n.query ∧
    (updateResolvedDeferredN n).forceIndex = n.forceIndex ∧
    (updateResolvedDeferredN n).mapRef = n.mapRef ∧
    (updateResolvedDeferredN n).dependents = n.dependents ∧
    (updateResolvedDeferredN n).pendingDependencyMap = n.pendingDependencyMap ∧
    (updateResolvedDeferredN n).fetchedSubtractedQuery = n.fetchedSubtractedQuery ∧
    (updateResolvedDeferredN n).resolvedSubtractedQuery = n.resolvedSubtractedQuery ∧
    (updateResolvedDeferredN n).errors = n.errors := by
  simp only [updateResolvedDeferredN]
  split
  · split <;> simp
  · simp

theorem updateRD_settled {Q : Type} (n : PendingFetchNode Q) :
    isSettledN (updateResolvedDeferredN n) = isSettledN n := by
  have h := updateRD_frame n
  simp [isSettledN, h.2.2.2.2.1, h.2.2.2.2.2.2.1, h.2.2.2.2.2.2.2]

theorem updateRD_deferred_stay {Q : Type} {n : PendingFetchNode Q}
    (h : n.deferred ≠ .pend) : (updateResolvedDeferredN n).deferred = n.deferred := by
  simp only [updateResolvedDeferredN]
  split
  · next hcond => exact absurd hcond.2 h
  · rfl

theorem updateRD_noop {Q : Type} {n : PendingFetchNode Q}
    (h : isSettledN n = false) : updateResolvedDeferredN n = n := by
  simp only [updateResolvedDeferredN]
  split
  · next hcond =>
    rw [h] at hcond
    exact absurd hcond.1 (by simp)
  · rfl

theorem updateRD_fire {Q : Type} {n : PendingFetchNode Q}
    (h1 : isSettledN n = true) (h2 : n.deferred = .pend) :
    (updateResolvedDeferredN n).deferred ≠ .pend ∧
      (∀ e, (updateResolvedDeferredN n).deferred = .rejectedD e →
        n.errors.head? = some e) := by
  simp only [updateResolvedDeferredN]
  rw [if_pos ⟨h1, h2⟩]
  split
  · next e l heq =>
    refine ⟨by simp, ?_⟩
    intro e2 he
    simp only [DeferredState.rejectedD.injEq] at he
    rw [heq, he]
    rfl
  · exact ⟨by simp, fun e2 he => by cases he⟩

theorem applyEvent_deferred_stay {Q : Type} (n : PendingFetchNode Q) (ev : FetchEvent)
    (h : n.deferred ≠ .pend) : (applyEvent n ev).deferred = n.deferred := by
  cases ev with
  | ownResolved => exact updateRD_deferred_stay h
  | errRecorded e => exact updateRD_deferred_stay h
  | depResolved qid => exact updateRD_deferred_stay h
  | depRejected qid e => exact updateRD_deferred_stay h
  | dependentAdded fid => rfl

theorem eqNilOfIsEmpty {α : Type} {l : List α} (h : l.isEmpty = true) : l = [] := by
  cases l with
  | nil => rfl
  | cons a r => simp [List.isEmpty] at h

theorem isEmpty_append_one {α : Type} (l : List α) (e : α) :
    (l ++ [e]).isEmpty = false := by
  cases l <;> rfl

theorem isSettledN_mono {Q : Type} (n : PendingFetchNode Q) (ev : FetchEvent)
    (h : isSettledN n = true) : isSettledN (applyEvent n ev) = true := by
  cases ev with
  | ownResolved =>
    simp only [applyEvent, updateRD_settled]
    simp only [isSettledN] at h ⊢
    rcases Bool.or_eq_true_iff.mp h with h1 | h1
    · simp [h1]
    · simp [(Bool.and_eq_true _ _).mp h1]
  | errRecorded e =>
    simp only [applyEvent, updateRD_settled]
    simp [isSettledN, isEmpty_append_one]
  | depResolved qid =>
    simp only [applyEvent, updateRD_settled]
    simp only [isSettledN] at h ⊢
    rcases Bool.or_eq_true_iff.mp h with h1 | h1
    · simp [h1]
    · obtain ⟨ha, hb⟩ := (Bool.and_eq_true _ _).mp h1
      rw [eqNilOfIsEmpty hb]
      simp [ha]
  | depRejected qid e =>
    simp only [applyEvent, updateRD_settled]
    simp [isSettledN, isEmpty_append_one]
  | dependentAdded fid => exact h

theorem applyEvent_errs {Q : Type} (n : PendingFetchNode Q) (e : String) :
    (applyEvent n (.errRecorded e)).errors = n.errors ++ [e] := by
  simp only [applyEvent]
  exact (updateRD_frame _).2.2.2.2.2.2.2

theorem update_step_main {Q : Type} (m : PendingFetchNode Q) (hmd : m.deferred = .pend) :
    ((updateResolvedDeferredN m).deferred = .pend ↔
      isSettledN (updateResolvedDeferredN m) = false) ∧
    (∀ e, (updateResolvedDeferredN m).deferred = .rejectedD e →
      (updateResolvedDeferredN m).errors.head? = some e) := by
  rcases Bool.eq_false_or_eq_true (isSettledN m) with hs | hs
  · have hf := updateRD_fire hs hmd
    refine ⟨?_, ?_⟩
    · rw [updateRD_settled, hs]
      simp [hf.1]
    · intro e he
      rw [(updateRD_frame m).2.2.2.2.2.2.2]
      exact hf.2 e he
  · rw [updateRD_noop hs]
    refine ⟨by simp [hmd, hs], ?_⟩
    intro e he
    rw [hmd] at he
    cases he

/-- C3: for every reachable fetch node state, the future is settled exactly
when the settlement condition (an error recorded, or own query resolved with
no pending dependencies) holds; a rejected future carries the first recorded
error; once settled no further event changes the outcome; and errors recorded
after settlement are still appended to the error list. -/
theorem claim_C3_settle_once {Q : Type} (s : PendingFetchNode Q)
    (hr : ReachableNode s) :
    (s.deferred = .pend ↔ isSettledN s = false) ∧
    (∀ e, s.deferred = .rejectedD e → s.errors.head? = some e) ∧
    (∀ ev, s.deferred ≠ .pend → (applyEvent s ev).deferred = s.deferred) ∧
    (∀ e, (applyEvent s (.errRecorded e)).errors = s.errors ++ [e]) := by
  induction hr with
  | init q fi mr deps fetched =>
    refine ⟨by simp [isSettledN], ?_, ?_, ?_⟩
    · intro e he
      simp at he
    · intro ev hne
      exact absurd rfl hne
    · intro e
      exact applyEvent_errs _ e
  | @step n ev hr ih =>
    obtain ⟨ih1, ih2, ih3, ih4⟩ := ih
    have main : ((applyEvent n ev).deferred = .pend ↔
        isSettledN (applyEvent n ev) = false) ∧
        (∀ e, (applyEvent n ev).deferred = .rejectedD e →
          (applyEvent n ev).errors.head? = some e) := by
      by_cases hnd : n.deferred = .pend
      · cases ev with
        | dependentAdded fid =>
          exact ⟨ih1, fun e he => ih2 e he⟩
        | ownResolved =>
          simp only [applyEvent]
          exact update_step_main _ hnd
        | errRecorded e =>
          simp only [applyEvent]
          exact update_step_main _ hnd
        | depResolved qid =>
          simp only [applyEvent]
          exact update_step_main _ hnd
        | depRejected qid e =>
          simp only [applyEvent]
          exact update_step_main _ hnd
      · have hd := applyEvent_deferred_stay n ev hnd
        have hsn : isSettledN n = true := by
          rcases Bool.eq_false_or_eq_true (isSettledN n) with h1 | h1
          · exact h1
          · exact absurd (ih1.mpr h1) hnd
        have hsm := isSettledN_mono n ev hsn
        refine ⟨?_, ?_⟩
        · rw [hd, hsm]
          simp [hnd]
        · intro e he
          rw [hd] at he
          have hh := ih2 e he
          have hne : n.errors ≠ [] := by
            intro hnil
            rw [hnil] at hh
            simp at hh
          have herr : (applyEvent n ev).errors = n.errors ∨
              ∃ e2, (applyEvent n ev).errors = n.errors ++ [e2] := by
            cases ev with
            | ownResolved => exact Or.inl ((updateRD_frame _).2.2.2.2.2.2.2)
            | errRecorded e2 => exact Or.inr ⟨e2, applyEvent_errs n e2⟩
            | depResolved qid => exact Or.inl ((updateRD_frame _).2.2.2.2.2.2.2)
            | depRejected qid e2 =>
              refine Or.inr ⟨e2, ?_⟩
              simp only [applyEvent]
              exact (updateRD_frame _).2.2.2.2.2.2.2
            | dependentAdded fid => exact Or.inl rfl
          rcases herr with h1 | ⟨e2, h1⟩
          · rw [h1]
            exact hh
          · rw [h1]
            cases hcs : n.errors with
            | nil => exact absurd hcs hne
            | cons a l =>
              rw [hcs] at hh
              simpa using hh
    exact ⟨main.1, main.2, fun ev2 h2 => applyEvent_deferred_stay _ ev2 h2,
      fun e => applyEvent_errs _ e⟩

/-- C3 witness: a node rejected by its first recorded error. -/
theorem claim_C3_witness :
    ((applyEvent w3base (.errRecorded "boom")).deferred = .pend ↔
      isSettledN (applyEvent w3base (.errRecorded "boom")) = false) ∧
    (applyEvent w3base (.errRecorded "boom")).errors.head? = some "boom" := by
  have hr : ReachableNode (applyEvent w3base (.errRecorded "boom")) :=
    ReachableNode.step (.errRecorded "boom") (ReachableNode.init 0 none 0 [] false)
  have h := claim_C3_settle_once _ hr
  exact ⟨h.1, h.2.1 "boom" (by decide)⟩

/-! Association list lemmas for the registry and fetch heap. -/

theorem lookupA_updateA_ne {κ α : Type} [DecidableEq κ] :
    ∀ (l : List (κ × α)) (k k2 : κ) (f : α → α), k2 ≠ k →
      lookupA (updateA l k f) k2 = lookupA l k2
  | [], _, _, _, _ => rfl
  | (a, b) :: rest, k, k2, f, h => by
    simp only [updateA]
    split
    · next ha =>
      subst ha
      simp only [lookupA]
      rw [if_neg fun hh => h hh.symm, if_neg fun hh => h hh.symm]
    · simp only [lookupA]
      split
      · rfl
      · exact lookupA_updateA_ne rest k k2 f h

theorem lookupA_updateA_eq {κ α : Type} [DecidableEq κ] :
    ∀ (l : List (κ × α)) (k : κ) (f : α → α),
      lookupA (updateA l k f) k = (lookupA l k).map f
  | [], _, _ => rfl
  | (a, b) :: rest, k, f => by
    simp only [updateA]
    split
    · next ha =>
      subst ha
      simp [lookupA]
    · next ha =>
      simp only [lookupA]
      split
      · next hb => exact absurd hb ha
      · exact lookupA_updateA_eq rest k f

theorem lookupA_append {κ α : Type} [DecidableEq κ] :
    ∀ (l l2 : List (κ × α)) (k : κ), lookupA l k = none →
      lookupA (l ++ l2) k = lookupA l2 k
  | [], _, _, _ => rfl
  | (a, b) :: rest, l2, k, h => by
    simp only [lookupA] at h ⊢
    split at h
    · cases h
    · next ha =>
      rw [if_neg ha]
      exact lookupA_append rest l2 k h

theorem lookupA_filter_ne_self {κ α : Type} [DecidableEq κ] :
    ∀ (l : List (κ × α)) (k : κ),
      lookupA (l.filter fun e => e.1 ≠ k) k = none
  | [], _ => rfl
  | (a, b) :: rest, k => by
    simp only [List.filter_cons]
    split
    · next ha =>
      simp only [decide_eq_true_eq] at ha
      simp only [lookupA]
      rw [if_neg ha]
      exact lookupA_filter_ne_self rest k
    · exact lookupA_filter_ne_self rest k

theorem insertA_isEmpty {κ α : Type} [DecidableEq κ] (l : List (κ × α)) (k : κ) (v : α) :
    (insertA l k v).isEmpty = false := by
  cases l with
  | nil => rfl
  | cons a r =>
    obtain ⟨a1, a2⟩ := a
    simp only [insertA]
    split <;> rfl

/-! Frame lemmas for event application inside the tracker. -/

theorem applyEventAt_frame {Q : Type} (st : TrackerState Q) (id : Nat) (ev : FetchEvent) :
    (applyEventAt st id ev).maps = st.maps ∧
    (applyEventAt st id ev).curMap = st.curMap ∧
    (applyEventAt st id ev).issuedFetches = st.issuedFetches ∧
    (applyEventAt st id ev).applied = st.applied ∧
    (applyEventAt st id ev).nextFetchID = st.nextFetchID ∧
    (applyEventAt st id ev).nextMapID = st.nextMapID :=
  ⟨rfl, rfl, rfl, rfl, rfl, rfl⟩

theorem foldlDep_frame {Q : Type} (ev : FetchEvent) :
    ∀ (ds : List Nat) (st : TrackerState Q),
      ((ds.foldl (fun acc d => applyEventAt acc d ev) st).maps = st.maps ∧
        (ds.foldl (fun acc d => applyEventAt acc d ev) st).curMap = st.curMap ∧
        (ds.foldl (fun acc d => applyEventAt acc d ev) st).issuedFetches =
          st.issuedFetches ∧
        (ds.foldl (fun acc d => applyEventAt acc d ev) st).applied = st.applied ∧
        (ds.foldl (fun acc d => applyEventAt acc d ev) st).nextFetchID =
          st.nextFetchID)
  | [], _ => ⟨rfl, rfl, rfl, rfl, rfl⟩
  | d :: ds, st => foldlDep_frame ev ds (applyEventAt st d ev)

theorem foldlDep_lookup_ne {Q : Type} (ev : FetchEvent) :
    ∀ (ds : List Nat) (st : TrackerState Q) (id : Nat), id ∉ ds →
      lookupA (ds.foldl (fun acc d => applyEventAt acc d ev) st).fetches id =
        lookupA st.fetches id
  | [], st, id, _ => rfl
  | d :: ds, st, id, h => by
    have h1 : id ≠ d := fun he => h (by simp [he])
    have h2 : id ∉ ds := fun he => h (by simp [he])
    rw [List.foldl_cons, foldlDep_lookup_ne ev ds (applyEventAt st d ev) id h2]
    exact lookupA_updateA_ne st.fetches d id _ h1

theorem foldl_dep_maps {Q : Type} (ev : FetchEvent) (ds : List Nat) (st : TrackerState Q) :
    (ds.foldl (fun acc d => applyEventAt acc d ev) st).maps = st.maps :=
  (foldlDep_frame ev ds st).1

theorem foldl_dep_curMap {Q : Type} (ev : FetchEvent) (ds : List Nat)
    (st : TrackerState Q) :
    (ds.foldl (fun acc d => applyEventAt acc d ev) st).curMap = st.curMap :=
  (foldlDep_frame ev ds st).2.1

theorem foldl_dep_issued {Q : Type} (ev : FetchEvent) (ds : List Nat)
    (st : TrackerState Q) :
    (ds.foldl (fun acc d => applyEventAt acc d ev) st).issuedFetches =
      st.issuedFetches :=
  (foldlDep_frame ev ds st).2.2.1

theorem map_snd_pair {α β : Type} (f : β → α) :
    ∀ l : List β, (l.map fun d => (f d, d)).map Prod.snd = l
  | [] => rfl
  | a :: l => by simp [map_snd_pair f l]

/-- What _markSubtractedQueryAsResolved does when the node has no
dependents: the registry entry is removed and the node marked resolved. -/
theorem mark_resolved_props {Q : Type} (ops : QueryOps Q) (st : TrackerState Q)
    (id : Nat) (n : PendingFetchNode Q) (hlook : lookupA st.fetches id = some n)
    (hdeps : n.dependents = []) :
    (markSubtractedQueryAsResolvedT ops st id).fetches =
      updateA st.fetches id (fun m => applyEvent m .ownResolved) ∧
    (markSubtractedQueryAsResolvedT ops st id).maps =
      updateA st.maps n.mapRef (fun es => es.filter fun e => e.1 ≠ ops.getID n.query) ∧
    (markSubtractedQueryAsResolvedT ops st id).curMap = st.curMap ∧
    (markSubtractedQueryAsResolvedT ops st id).issuedFetches = st.issuedFetches ∧
    (markSubtractedQueryAsResolvedT ops st id).applied = st.applied := by
  simp only [markSubtractedQueryAsResolvedT, hlook, hdeps, List.foldl_nil]
  exact ⟨rfl, rfl, rfl, rfl, rfl⟩

/-! Claim C10: PRELOAD enqueue. -/

/-- C10: a PRELOAD enqueue performs no subtraction and records no dependency
edges, issues no network fetch, yet registers the node under its query id
with the full query, so hasPendingQueries is true; once the node is marked
resolved it removes itself from the registry. -/
theorem claim_C10_preload_registration {Q : Type} [DecidableEq Q] (ops : QueryOps Q)
    (st : TrackerState Q) (fi : Option Int) (q : Q)
    (hfresh : lookupA st.fetches st.nextFetchID = none)
    (hmap : (lookupA st.maps st.curMap).isSome = true) :
    (∃ nd : PendingFetchNode Q,
      lookupA (addFetch ops st ⟨.preload, fi, q⟩).1.fetches
          (addFetch ops st ⟨.preload, fi, q⟩).2 = some nd ∧
        nd.query = q ∧ nd.pendingDependencyMap = [] ∧
        nd.fetchedSubtractedQuery = false ∧ nd.dependents = []) ∧
    (addFetch ops st ⟨.preload, fi, q⟩).1.issuedFetches = st.issuedFetches ∧
    currentEntries (addFetch ops st ⟨.preload, fi, q⟩).1 =
      insertA (currentEntries st) (ops.getID q)
        ((addFetch ops st ⟨.preload, fi, q⟩).2, q) ∧
    hasPendingQueries (addFetch ops st ⟨.preload, fi, q⟩).1 = true ∧
    lookupA (currentEntries (markSubtractedQueryAsResolvedT ops
        (addFetch ops st ⟨.preload, fi, q⟩).1 (addFetch ops st ⟨.preload, fi, q⟩).2))
      (ops.getID q) = none := by
  obtain ⟨es, hes⟩ := Option.isSome_iff_exists.mp hmap
  have haf : addFetch ops st ⟨.preload, fi, q⟩ =
      ({ st with
          fetches := st.fetches ++
            [(st.nextFetchID,
              { query := q, forceIndex := fi, mapRef := st.curMap, dependents := [],
                pendingDependencyMap := [], fetchedSubtractedQuery := false,
                resolvedSubtractedQuery := false, errors := [],
                deferred := .pend })],
          nextFetchID := st.nextFetchID + 1,
          maps := updateA st.maps st.curMap
            (fun es2 => insertA es2 (ops.getID q) (st.nextFetchID, q)) },
        st.nextFetchID) := by
    simp [addFetch]
  rw [haf]
  have hlook : lookupA (st.fetches ++
        [(st.nextFetchID,
            ({ query := q, forceIndex := fi, mapRef := st.curMap, dependents := [],
                pendingDependencyMap := [], fetchedSubtractedQuery := false,
                resolvedSubtractedQuery := false, errors := [],
                deferred := .pend } : PendingFetchNode Q))]) st.nextFetchID =
      some { query := q, forceIndex := fi, mapRef := st.curMap, dependents := [],
              pendingDependencyMap := [], fetchedSubtractedQuery := false,
              resolvedSubtractedQuery := false, errors := [], deferred := .pend } := by
    rw [lookupA_append st.fetches _ _ hfresh]
    simp [lookupA]
  refine ⟨⟨_, hlook, rfl, rfl, rfl, rfl⟩, rfl, ?_, ?_, ?_⟩
  · simp only [currentEntries, lookupA_updateA_eq, hes]
    rfl
  · simp only [hasPendingQueries, currentEntries, lookupA_updateA_eq, hes]
    simp [insertA_isEmpty]
  · simp only [currentEntries, markSubtractedQueryAsResolvedT]
    rw [hlook]
    simp only [eraseMapEntry, applyEventAt, List.foldl_nil]
    rw [lookupA_updateA_eq, lookupA_updateA_eq, hes]
    simp only [Option.map_some', Option.getD_some]
    exact lookupA_filter_ne_self _ _

/-! Claim C4: non-preload enqueue subtracts the registry. -/

/-- C4: on a non-preload enqueue the registry is walked in order: the walk
stops once the remainder is gone, an entry whose pending query does not
overlap or removes nothing is skipped, and an entry that removes something
records a dependency edge and the walk continues with the updated remainder;
the new node records exactly the collected dependency edges, and when the
final remainder is null the node is marked already fetched and resolved and
no network fetch is issued, while a non-null remainder is fetched and
registered under the query id. -/
theorem claim_C4_enqueue_subtraction {Q : Type} [DecidableEq Q] (ops : QueryOps Q)
    (st : TrackerState Q) (params : AddParams Q)
    (hmode : params.fetchMode ≠ .preload)
    (hfresh : lookupA st.fetches st.nextFetchID = none)
    (hmap : (lookupA st.maps st.curMap).isSome = true)
    (hnotdep : st.nextFetchID ∉
      (subtractPendingLoop ops (currentEntries st) (some params.query)).2) :
    (∀ entries : List (String × Nat × Q), subtractPendingLoop ops entries none =
      (none, [])) ∧
    (∀ (qid : String) (fid : Nat) (pq : Q) (entries : List (String × Nat × Q)) (q : Q),
      ops.containsRoot pq q = false ∨ ops.subtractQ q pq = some q →
      subtractPendingLoop ops ((qid, fid, pq) :: entries) (some q) =
        subtractPendingLoop ops entries (some q)) ∧
    (∀ (qid : String) (fid : Nat) (pq : Q) (entries : List (String × Nat × Q)) (q : Q),
      ops.containsRoot pq q = true → ops.subtractQ q pq ≠ some q →
      subtractPendingLoop ops ((qid, fid, pq) :: entries) (some q) =
        ((subtractPendingLoop ops entries (ops.subtractQ q pq)).1,
          fid :: (subtractPendingLoop ops entries (ops.subtractQ q pq)).2)) ∧
    (addFetch ops st params).2 = st.nextFetchID ∧
    (∃ nd : PendingFetchNode Q,
      lookupA (addFetch ops st params).1.fetches (addFetch ops st params).2 = some nd ∧
        nd.query = params.query ∧
        nd.pendingDependencyMap.map Prod.snd =
          (subtractPendingLoop ops (currentEntries st) (some params.query)).2 ∧
        ((subtractPendingLoop ops (currentEntries st) (some params.query)).1 = none →
          nd.fetchedSubtractedQuery = true ∧ nd.resolvedSubtractedQuery = true)) ∧
    ((subtractPendingLoop ops (currentEntries st) (some params.query)).1 = none →
      (addFetch ops st params).1.issuedFetches = st.issuedFetches ∧
      currentEntries (addFetch ops st params).1 =
        eraseA (currentEntries st) (ops.getID params.query)) ∧
    (∀ sq, (subtractPendingLoop ops (currentEntries st) (some params.query)).1 = some sq →
      (addFetch ops st params).1.issuedFetches = st.issuedFetches ++ [sq] ∧
      currentEntries (addFetch ops st params).1 =
        insertA (currentEntries st) (ops.getID params.query)
          ((addFetch ops st params).2, sq)) := by
  obtain ⟨es, hes⟩ := Option.isSome_iff_exists.mp hmap
  refine ⟨?_, ?_, ?_, ?_, ?_, ?_, ?_⟩
  · intro entries
    cases entries <;> rfl
  · intro qid fid pq entries q h
    by_cases hc : ops.containsRoot pq q = true
    · rcases h with h | h
      · rw [hc] at h
        cases h
      · simp [subtractPendingLoop, hc, h]
    · have hcf : ops.containsRoot pq q = false := by
        revert hc
        cases ops.containsRoot pq q <;> simp
      simp [subtractPendingLoop, hcf]
  · intro qid fid pq entries q h1 h2
    simp [subtractPendingLoop, h1, h2]
  · cases hsub : (subtractPendingLoop ops (currentEntries st) (some params.query)).1 with
    | none => simp [addFetch, hmode, hsub, markSubtractedQueryAsResolvedT]
    | some sq => simp [addFetch, hmode, hsub]
  · cases hsub : (subtractPendingLoop ops (currentEntries st) (some params.query)).1 with
    | none =>
      have haf : addFetch ops st params =
          (markSubtractedQueryAsResolvedT ops
            ((subtractPendingLoop ops (currentEntries st) (some params.query)).2.foldl
              (fun acc d => applyEventAt acc d (.dependentAdded st.nextFetchID))
              { st with
                  fetches := st.fetches ++ [(st.nextFetchID, nodeOf ops st params none)],
                  nextFetchID := st.nextFetchID + 1 })
            st.nextFetchID,
          st.nextFetchID) := by
        simp [addFetch, hmode, hsub, nodeOf]
      simp only [haf]
      have hlook1 : lookupA (st.fetches ++
          [(st.nextFetchID, nodeOf ops st params none)]) st.nextFetchID =
          some (nodeOf ops st params none) := by
        rw [lookupA_append _ _ _ hfresh]
        simp [lookupA]
      have hlook2 := (foldlDep_lookup_ne (.dependentAdded st.nextFetchID)
        (subtractPendingLoop ops (currentEntries st) (some params.query)).2
        { st with
            fetches := st.fetches ++ [(st.nextFetchID, nodeOf ops st params none)],
            nextFetchID := st.nextFetchID + 1 }
        st.nextFetchID hnotdep).trans hlook1
      have hmark := mark_resolved_props ops _ st.nextFetchID _ hlook2 (by rfl)
      refine ⟨applyEvent (nodeOf ops st params none) .ownResolved, ?_, ?_, ?_, ?_⟩
      · rw [hmark.1, lookupA_updateA_eq, hlook2]
        rfl
      · exact (updateRD_frame _).1
      · simp only [applyEvent]
        rw [(updateRD_frame _).2.2.2.2.1]
        simp only [nodeOf]
        exact map_snd_pair _ _
      · intro _
        constructor
        · exact (updateRD_frame _).2.2.2.2.2.1
        · exact (updateRD_frame _).2.2.2.2.2.2.1
    | some sq =>
      have haf : addFetch ops st params =
          ({ (subtractPendingLoop ops (currentEntries st) (some params.query)).2.foldl
              (fun acc d => applyEventAt acc d (.dependentAdded st.nextFetchID))
              { st with
                  fetches := st.fetches ++
                    [(st.nextFetchID, nodeOf ops st params (some sq))],
                  nextFetchID := st.nextFetchID + 1 } with
            issuedFetches :=
              ((subtractPendingLoop ops (currentEntries st) (some params.query)).2.foldl
                (fun acc d => applyEventAt acc d (.dependentAdded st.nextFetchID))
                { st with
                    fetches := st.fetches ++
                      [(st.nextFetchID, nodeOf ops st params (some sq))],
                    nextFetchID := st.nextFetchID + 1 }).issuedFetches ++ [sq],
            maps := updateA
              ((subtractPendingLoop ops (currentEntries st) (some params.query)).2.foldl
                (fun acc d => applyEventAt acc d (.dependentAdded st.nextFetchID))
                { st with
                    fetches := st.fetches ++
                      [(st.nextFetchID, nodeOf ops st params (some sq))],
                    nextFetchID := st.nextFetchID + 1 }).maps
              ((subtractPendingLoop ops (currentEntries st) (some params.query)).2.foldl
                (fun acc d => applyEventAt acc d (.dependentAdded st.nextFetchID))
                { st with
                    fetches := st.fetches ++
                      [(st.nextFetchID, nodeOf ops st params (some sq))],
                    nextFetchID := st.nextFetchID + 1 }).curMap
              fun es2 => insertA es2 (ops.getID params.query) (st.nextFetchID, sq) },
          st.nextFetchID) := by
        simp [addFetch, hmode, hsub, nodeOf]
      simp only [haf]
      have hlook1 : lookupA (st.fetches ++
          [(st.nextFetchID, nodeOf ops st params (some sq))]) st.nextFetchID =
          some (nodeOf ops st params (some sq)) := by
        rw [lookupA_append _ _ _ hfresh]
        simp [lookupA]
      have hlook2 := (foldlDep_lookup_ne (.dependentAdded st.nextFetchID)
        (subtractPendingLoop ops (currentEntries st) (some params.query)).2
        { st with
            fetches := st.fetches ++ [(st.nextFetchID, nodeOf ops st params (some sq))],
            nextFetchID := st.nextFetchID + 1 }
        st.nextFetchID hnotdep).trans hlook1
      refine ⟨nodeOf ops st params (some sq), hlook2, rfl, ?_, ?_⟩
      · simp only [nodeOf]
        exact map_snd_pair _ _
      · intro h
        exact Option.noConfusion h
  · intro hn
    have haf : addFetch ops st params =
        (markSubtractedQueryAsResolvedT ops
          ((subtractPendingLoop ops (currentEntries st) (some params.query)).2.foldl
            (fun acc d => applyEventAt acc d (.dependentAdded st.nextFetchID))
            { st with
                fetches := st.fetches ++ [(st.nextFetchID, nodeOf ops st params none)],
                nextFetchID := st.nextFetchID + 1 })
          st.nextFetchID,
        st.nextFetchID) := by
      simp [addFetch, hmode, hn, nodeOf]
    simp only [haf]
    have hlook1 : lookupA (st.fetches ++
        [(st.nextFetchID, nodeOf ops st params none)]) st.nextFetchID =
        some (nodeOf ops st params none) := by
      rw [lookupA_append _ _ _ hfresh]
      simp [lookupA]
    have hlook2 := (foldlDep_lookup_ne (.dependentAdded st.nextFetchID)
      (subtractPendingLoop ops (currentEntries st) (some params.query)).2
      { st with
          fetches := st.fetches ++ [(st.nextFetchID, nodeOf ops st params none)],
          nextFetchID := st.nextFetchID + 1 }
      st.nextFetchID hnotdep).trans hlook1
    have hmark := mark_resolved_props ops _ st.nextFetchID _ hlook2 (by rfl)
    constructor
    · rw [hmark.2.2.2.1]
      simp only [foldl_dep_issued]
    · simp only [currentEntries] at hmark ⊢
      rw [hmark.2.1, hmark.2.2.1]
      simp only [foldl_dep_maps, foldl_dep_curMap, nodeOf]
      rw [lookupA_updateA_eq, hes]
      simp [eraseA]
  · intro sq hn
    have haf : addFetch ops st params =
        ({ (subtractPendingLoop ops (currentEntries st) (some params.query)).2.foldl
            (fun acc d => applyEventAt acc d (.dependentAdded st.nextFetchID))
            { st with
                fetches := st.fetches ++
                  [(st.nextFetchID, nodeOf ops st params (some sq))],
                nextFetchID := st.nextFetchID + 1 } with
          issuedFetches :=
            ((subtractPendingLoop ops (currentEntries st) (some params.query)).2.foldl
              (fun acc d => applyEventAt acc d (.dependentAdded st.nextFetchID))
              { st with
                  fetches := st.fetches ++
                    [(st.nextFetchID, nodeOf ops st params (some sq))],
                  nextFetchID := st.nextFetchID + 1 }).issuedFetches ++ [sq],
          maps := updateA
            ((subtractPendingLoop ops (currentEntries st) (some params.query)).2.foldl
              (fun acc d => applyEventAt acc d (.dependentAdded st.nextFetchID))
              { st with
                  fetches := st.fetches ++
                    [(st.nextFetchID, nodeOf ops st params (some sq))],
                  nextFetchID := st.nextFetchID + 1 }).maps
            ((subtractPendingLoop ops (currentEntries st) (some params.query)).2.foldl
              (fun acc d => applyEventAt acc d (.dependentAdded st.nextFetchID))
              { st with
                  fetches := st.fetches ++
                    [(st.nextFetchID, nodeOf ops st params (some sq))],
                  nextFetchID := st.nextFetchID + 1 }).curMap
            fun es2 => insertA es2 (ops.getID params.query) (st.nextFetchID, sq) },
        st.nextFetchID) := by
      simp [addFetch, hmode, hn, nodeOf]
    simp only [haf]
    constructor
    · simp only [foldl_dep_issued]
    · simp only [currentEntries, foldl_dep_maps, foldl_dep_curMap]
      rw [lookupA_updateA_eq, hes]
      simp

/-- C4 witness: a non-preload enqueue on the fresh tracker gets fetch id 0. -/
theorem claim_C4_witness :
    ((⟨.client, none, 5⟩ : AddParams Nat).fetchMode ≠ .preload) ∧
    (addFetch natOps (initialTracker Nat) ⟨.client, none, 5⟩).2 = 0 :=
  ⟨by decide,
    (claim_C4_enqueue_subtraction natOps (initialTracker Nat) ⟨.client, none, 5⟩
      (by decide) (by rfl) (by rfl) (by decide)).2.2.2.1⟩

/-- C10 witness: a PRELOAD enqueue on the fresh tracker leaves it with a
pending query. -/
theorem claim_C10_witness :
    (lookupA (initialTracker Nat).fetches (initialTracker Nat).nextFetchID = none) ∧
    hasPendingQueries (addFetch natOps (initialTracker Nat) ⟨.preload, none, 7⟩).1 = true :=
  ⟨rfl,
    (claim_C10_preload_registration natOps (initialTracker Nat) none 7
      (by rfl) (by rfl)).2.2.2.1⟩

end Relay
